import Mathlib

/-!
Verification of the R-Memory context-compression engine.

This file gives a shallow embedding of the engine's core: the block
segmenter (both the turn-completion message path `groupMessagesIntoBlocks`
and the compaction entry path `groupEntriesIntoBlocks`), the
content-addressable compression cache and its background queue, the
compaction swap planner (`handleBeforeCompact`), and the FIFO history
eviction stage, together with theorems settling the specification claims.

Modelling conventions:
* JS numbers are modelled as `Nat`/`Int`; the two fractional constants in
  the source (`Math.ceil(tokens * 0.6)`, `compressedTokens >= rawTokens *
  0.95`, `newlinePos > maxChars * 0.7`) are modelled by the exact rational
  comparisons `⌈3t/5⌉`, `20c ≥ 19r` and `10i > 7m`.
* `hashText` (a sha256 prefix in the source) is a deterministic injective
  content key; it is modelled as the identity on strings, which preserves
  determinism (equal text ⇒ equal key). Hash collisions are not modelled.
* JS string indices are UTF-16 code units; they are modelled as `Char`
  positions.
* Loops are modelled by structural recursion; the two loops whose step
  consumes a data-dependent number of elements (`hardSplitText` and the
  oversized-turn packing loop) take an explicit fuel argument initialised
  to the input length, which is an exact bound since every iteration
  consumes at least one element.
-/

namespace RMemory

/-- `estimateTokens(text) = Math.ceil(text.length / 4)`. -/
def estimateTokens (text : String) : Nat := (text.length + 3) / 4

/-- Content hash of a block's text (sha256 prefix in the source), modelled
as the identity content key; see the module docstring. -/
def hashText (text : String) : String := text

/-- JS `Array.prototype.join(sep)`. -/
def joinSep (sep : String) : List String → String
  | [] => ""
  | [x] => x
  | x :: y :: t => x ++ sep ++ joinSep sep (y :: t)

/-- The engine's configuration record (`DEFAULT_CONFIG` defaults). -/
structure Config where
  evictTrigger : Nat := 80000
  compressTrigger : Nat := 36000
  blockSize : Nat := 4000
  minCompressChars : Nat := 200
  minSwapTokens : Nat := 50
  maxParallelCompressions : Nat := 4
  enabled : Bool := true
deriving DecidableEq

/-- `config.blockSize || 4000` (JS falsy-or). -/
def cfgBlockSize (cfg : Config) : Nat := if cfg.blockSize = 0 then 4000 else cfg.blockSize

/-- `config.minSwapTokens || 50` (JS falsy-or). -/
def cfgMinSwapTokens (cfg : Config) : Nat :=
  if cfg.minSwapTokens = 0 then 50 else cfg.minSwapTokens

/-- One element of a structured message `content` array. `toolUseRaw` and
`toolResultRaw` stand for un-normalized provider blocks of type
`"tool_use"` / `"tool_result"`. -/
inductive CBlock where
  | text (s : String)
  | image
  | thinking (s : String)
  | toolCall (name : String) (argsJson : String)
  | toolUseRaw
  | toolResultRaw
deriving DecidableEq

/-- A message's `content` field: absent, a plain string, or an array. -/
inductive MsgContent where
  | absent
  | str (s : String)
  | arr (blocks : List CBlock)
deriving DecidableEq

/-- One conversation message. Fields beyond `role`/`content` are the
role-specific fields read by the engine (`command`/`output` for
`bashExecution`, `summary` for the two summary roles, `toolCallsCount`
and `hasToolCallId` for un-normalized OpenAI-format messages). -/
structure Msg where
  role : String
  content : MsgContent := .absent
  command : String := ""
  output : String := ""
  summary : String := ""
  toolCallsCount : Nat := 0
  hasToolCallId : Bool := false
deriving DecidableEq

/-- The `c.length > 8000 ? c.slice(0,4000)+"..."+c.slice(-2000) : c`
truncation used for tool results and bash output. -/
def truncateLong (s : String) : String :=
  if s.length > 8000 then
    (s.take 4000) ++ "\n...[truncated]...\n" ++ (s.drop (s.length - 2000))
  else s

/-- User-message content array rendering (text blocks with truthy text,
image placeholders). -/
def userPartsOfBlock : CBlock → List String
  | .text s => if s = "" then [] else [s]
  | .image => ["[Image: ~1200 tokens]"]
  | _ => []

/-- Assistant-message content array rendering (text, truncated thinking,
tool calls wrapped in PRESERVE_VERBATIM tags). -/
def assistantPartsOfBlock : CBlock → List String
  | .text s => [s]
  | .thinking t =>
      [if t.length > 2000 then
        "[Thinking]: " ++ t.take 500 ++ "\n...[truncated]...\n" ++ t.drop (t.length - 500)
      else "[Thinking]: " ++ t]
  | .toolCall name args =>
      ["[Tool: " ++ name ++ "]",
       "<PRESERVE_VERBATIM>\n" ++ args ++ "\n</PRESERVE_VERBATIM>"]
  | _ => []

/-- Tool-result content array rendering (truthy text blocks truncated,
image placeholders). -/
def toolResultPartsOfBlock : CBlock → List String
  | .text s => if s = "" then [] else [truncateLong s]
  | .image => ["[Image: ~1200 tokens]"]
  | _ => []

/-- `extractMessageText(msg)`: render one message to text, by role. -/
def extractMessageText (msg : Msg) : String :=
  let parts : List String :=
    if msg.role = "user" then
      "[Human]:" :: (match msg.content with
        | .str s => [s]
        | .arr bs => bs.flatMap userPartsOfBlock
        | .absent => [])
    else if msg.role = "assistant" then
      "[AI]:" :: (match msg.content with
        | .arr bs => bs.flatMap assistantPartsOfBlock
        | _ => [])
    else if msg.role = "toolResult" then
      "[Tool Result]:" :: (match msg.content with
        | .str s => [truncateLong s]
        | .arr bs => bs.flatMap toolResultPartsOfBlock
        | .absent => [])
    else if msg.role = "bashExecution" then
      ["[Bash]:", "$ " ++ msg.command, truncateLong msg.output]
    else if msg.role = "compactionSummary" then
      ["[Previous Compressed]:", msg.summary]
    else if msg.role = "branchSummary" then
      ["[Branch Context]:", msg.summary]
    else if msg.role = "custom" then
      "[Custom]:" :: (match msg.content with | .str s => [s] | _ => [])
    else
      ("[" ++ (if msg.role = "" then "unknown" else msg.role) ++ "]:") ::
        (match msg.content with | .str s => [s] | _ => [])
  joinSep "\n" parts

/-- `hasToolUse(msg)` from `groupEntriesIntoBlocks`: internal `toolCall`
content, un-normalized Anthropic `tool_use` content, or un-normalized
OpenAI `tool_calls[]`. -/
def hasToolUse (msg : Msg) : Bool :=
  (match msg.content with
    | .arr bs => bs.any (fun b => match b with | .toolCall _ _ => true | _ => false)
        || bs.any (fun b => match b with | .toolUseRaw => true | _ => false)
    | _ => false)
  || decide (msg.toolCallsCount > 0)

/-- `hasToolResult(msg)` from `groupEntriesIntoBlocks`: internal
`toolResult` role, un-normalized Anthropic `tool_result` content, or
un-normalized OpenAI `role:"tool"` with a `tool_call_id`. -/
def hasToolResult (msg : Msg) : Bool :=
  msg.role = "toolResult"
  || (match msg.content with
      | .arr bs => bs.any (fun b => match b with | .toolResultRaw => true | _ => false)
      | _ => false)
  || (msg.role = "tool" && msg.hasToolCallId)

/-- The two history-summary roles skipped by both grouping loops. -/
def isSummaryRole (msg : Msg) : Bool :=
  msg.role = "compactionSummary" || msg.role = "branchSummary"

/-- `remaining.lastIndexOf("\n", maxIdx)`: the largest char position
`≤ maxIdx` holding a newline, if any. -/
def lastNewlinePos (s : String) (maxIdx : Nat) : Option Nat :=
  (((s.toList.take (maxIdx + 1)).enum.filter (fun p => p.2 = '\n')).map Prod.fst).getLast?

/-- `hardSplitText(text, maxChars)`: split an oversized text into chunks of
at most `maxChars` characters, preferring a newline boundary in the top
30% of the window. The fuel argument equals the remaining length; every
iteration consumes at least one character (for `maxChars ≥ 1`), so the
fuel is never exhausted and the definition agrees with the source loop. -/
def hardSplitGo (maxChars : Nat) : Nat → String → List String
  | 0, remaining => if remaining.length > 0 then [remaining] else []
  | fuel + 1, remaining =>
    if remaining.length > maxChars then
      let splitAt :=
        match lastNewlinePos remaining maxChars with
        | some i => if 10 * i > 7 * maxChars then i + 1 else maxChars
        | none => maxChars
      (remaining.take splitAt) :: hardSplitGo maxChars fuel (remaining.drop splitAt)
    else if remaining.length > 0 then [remaining] else []

/-- `hardSplitText(text, maxChars)`. -/
def hardSplitText (text : String) (maxChars : Nat) : List String :=
  hardSplitGo maxChars text.length text

/-- A Block produced from flat messages (turn-completion path). -/
structure MBlock where
  messages : List Msg
  text : String
  hash : String
  tokens : Nat
deriving DecidableEq

/-- `finalizeBlock(messages)`. -/
def finalizeBlock (messages : List Msg) : MBlock :=
  let text := joinSep "\n\n" (messages.map extractMessageText)
  { messages := messages, text := text, hash := hashText text, tokens := estimateTokens text }

/-- An indexed entry `{index, id, message}` as built by
`groupEntriesIntoBlocks`. -/
structure IEntry where
  index : Nat
  id : String
  message : Msg
deriving DecidableEq

/-- A Block produced from branch entries (compaction path). -/
structure EBlock where
  entries : List IEntry
  firstEntryId : String
  firstEntryIndex : Nat
  text : String
  hash : String
  tokens : Nat
deriving DecidableEq

/-- `finalizeEntryBlock(entries)` (the source never calls it on an empty
list; the defaults for that case are irrelevant placeholders). -/
def finalizeEntryBlock (entries : List IEntry) : EBlock :=
  let text := joinSep "\n\n" (entries.map (fun e => extractMessageText e.message))
  { entries := entries,
    firstEntryId := (entries.head?.map IEntry.id).getD "",
    firstEntryIndex := (entries.head?.map IEntry.index).getD 0,
    text := text, hash := hashText text, tokens := estimateTokens text }

/-- Token estimate of a single indexed entry's rendered message. -/
def entryTokens (e : IEntry) : Nat := estimateTokens (extractMessageText e.message)

/-! ### Turn-completion path: `groupMessagesIntoBlocks` -/

/-- Step 1 of `groupMessagesIntoBlocks`: group messages into turns; a new
turn starts at every `user` message (summary roles are filtered out by the
caller, mirroring the loop's `continue`). -/
def turnsGoM : List Msg → List Msg → List (List Msg)
  | [], cur => if cur.isEmpty then [] else [cur]
  | m :: rest, cur =>
    if m.role = "user" && !cur.isEmpty then
      cur :: turnsGoM rest [m]
    else turnsGoM rest (cur ++ [m])

/-- Steps 2–3 of `groupMessagesIntoBlocks`: split an oversized turn at
message boundaries; hard-split single oversized messages. -/
def packLoopM (maxTokens maxChars : Nat) : List Msg → List Msg → Nat → List MBlock
  | [], acc, _ => if acc.isEmpty then [] else [finalizeBlock acc]
  | m :: rest, acc, accTok =>
    let msgText := extractMessageText m
    let msgTokens := estimateTokens msgText
    if msgTokens > maxTokens then
      (if acc.isEmpty then [] else [finalizeBlock acc]) ++
      ((hardSplitText msgText maxChars).map (fun chunk =>
        { messages := [m], text := chunk, hash := hashText chunk,
          tokens := estimateTokens chunk })) ++
      packLoopM maxTokens maxChars rest [] 0
    else if accTok + msgTokens > maxTokens && !acc.isEmpty then
      finalizeBlock acc :: packLoopM maxTokens maxChars rest [m] msgTokens
    else
      packLoopM maxTokens maxChars rest (acc ++ [m]) (accTok + msgTokens)

/-- One turn's blocks on the message path. -/
def blocksOfTurnM (cfg : Config) (turn : List Msg) : List MBlock :=
  let maxTokens := cfgBlockSize cfg
  let turnText := joinSep "\n\n" (turn.map extractMessageText)
  if estimateTokens turnText ≤ maxTokens then [finalizeBlock turn]
  else packLoopM maxTokens (maxTokens * 4) turn [] 0

/-- `groupMessagesIntoBlocks(messages)` (turn-completion path; no
tool-pairing logic). -/
def groupMessagesIntoBlocks (cfg : Config) (messages : List Msg) : List MBlock :=
  (turnsGoM (messages.filter (fun m => !isSummaryRole m)) []).flatMap (blocksOfTurnM cfg)

/-! ### Compaction path: `groupEntriesIntoBlocks` -/

/-- The kind of a branch entry, as discriminated by `getMessageFromEntry`.
`custom` carries the `customType` tag and the (already stringified) `data`
payload when present. -/
inductive EntryKind where
  | message (msg : Msg)
  | custom (customType : String) (data : Option String)
  | customMessage (content : String)
  | compaction (summary : String)
  | branchSummaryEntry (summary : String)
  | other
deriving DecidableEq

/-- One entry of the host's branch-entry log. -/
structure BranchEntry where
  id : String
  kind : EntryKind
deriving DecidableEq

/-- The `METADATA_TYPES` list of `getMessageFromEntry`. -/
def metadataTypes : List String := ["model-snapshot", "openclaw.cache-ttl", "openclaw.metadata"]

/-- `getMessageFromEntry(entry)`. -/
def getMessageFromEntry (e : BranchEntry) : Option Msg :=
  match e.kind with
  | .message m => some m
  | .custom ct data =>
    if metadataTypes.contains ct then none
    else match data with
      | some d => some { role := "assistant", content := .str d }
      | none => none
  | .customMessage c => some { role := "custom", content := .str c }
  | .compaction s => some { role := "compactionSummary", summary := s }
  | .branchSummaryEntry s => some { role := "branchSummary", summary := s }
  | .other => none

/-- The indexed, filtered sequence the compaction grouping loop actually
iterates over: entries from `startIndex` on whose message is non-null and
not a summary role, tagged with their absolute index and id. -/
def entrySeq (entries : List BranchEntry) (startIndex : Nat) : List IEntry :=
  (entries.enum.drop startIndex).filterMap fun p =>
    match getMessageFromEntry p.2 with
    | some m => if isSummaryRole m then none else some ⟨p.1, p.2.id, m⟩
    | none => none

/-- Step 1 of `groupEntriesIntoBlocks`: group into turns, but keep a
user-role tool-result with the tool-use that precedes it. -/
def turnsGo : List IEntry → List IEntry → List (List IEntry)
  | [], cur => if cur.isEmpty then [] else [cur]
  | e :: rest, cur =>
    if e.message.role = "user" && !cur.isEmpty then
      if hasToolResult e.message &&
         (match cur.getLast? with | some p => hasToolUse p.message | none => false) then
        turnsGo rest (cur ++ [e])
      else cur :: turnsGo rest [e]
    else turnsGo rest (cur ++ [e])

/-- The run of tool-result entries absorbed after `e` when `e` carries a
tool use (`while (hasToolResult(turnEntries[j+1])) j++`). -/
def absorbedOf (e : IEntry) (rest : List IEntry) : List IEntry :=
  if hasToolUse e.message then rest.takeWhile (fun x => hasToolResult x.message) else []

/-- The entries remaining after `e` and its absorbed tool results. -/
def restAfter (e : IEntry) (rest : List IEntry) : List IEntry :=
  if hasToolUse e.message then rest.dropWhile (fun x => hasToolResult x.message) else rest

/-- A hard-split chunk block on the entry path (each chunk keeps the
entry's id and index). -/
def chunkBlock (e : IEntry) (chunk : String) : EBlock :=
  { entries := [e], firstEntryId := e.id, firstEntryIndex := e.index,
    text := chunk, hash := hashText chunk, tokens := estimateTokens chunk }

/-- The atomic unit starting at `e`: the entry together with its absorbed
tool results. -/
def pairedOf (e : IEntry) (rest : List IEntry) : List IEntry := e :: absorbedOf e rest

/-- The token estimate of an atomic unit (per-message sums, as in the
source's `pairedTokens`). -/
def pairedTokensOf (e : IEntry) (rest : List IEntry) : Nat :=
  ((pairedOf e rest).map entryTokens).sum

/-- Flush the accumulating block, if non-empty
(`if (blockEntries.length > 0) blocks.push(finalizeEntryBlock(...))`). -/
def flushAcc (acc : List IEntry) : List EBlock :=
  if acc.isEmpty then [] else [finalizeEntryBlock acc]

/-- Steps 2–3 of `groupEntriesIntoBlocks`: split an oversized turn at
message boundaries while keeping each tool-use together with its absorbed
tool results; an oversized pair stays one oversized block; a single
oversized message is hard-split. Fuel equals the number of entries still
to process (each iteration consumes at least one entry). -/
def packLoopGo (maxTokens maxChars : Nat) :
    Nat → List IEntry → List IEntry → Nat → List EBlock
  | 0, _, acc, _ => flushAcc acc
  | _ + 1, [], acc, _ => flushAcc acc
  | fuel + 1, e :: rest, acc, accTok =>
    if pairedTokensOf e rest > maxTokens && (pairedOf e rest).length > 1 then
      flushAcc acc ++
        (finalizeEntryBlock (pairedOf e rest) ::
          packLoopGo maxTokens maxChars fuel (restAfter e rest) [] 0)
    else if pairedTokensOf e rest > maxTokens then
      flushAcc acc ++
        ((hardSplitText (extractMessageText e.message) maxChars).map (chunkBlock e)) ++
        packLoopGo maxTokens maxChars fuel (restAfter e rest) [] 0
    else if accTok + pairedTokensOf e rest > maxTokens && !acc.isEmpty then
      finalizeEntryBlock acc ::
        packLoopGo maxTokens maxChars fuel (restAfter e rest) (pairedOf e rest)
          (pairedTokensOf e rest)
    else
      packLoopGo maxTokens maxChars fuel (restAfter e rest) (acc ++ pairedOf e rest)
        (accTok + pairedTokensOf e rest)

/-- One turn's blocks on the entry path. -/
def blocksOfTurn (cfg : Config) (turn : List IEntry) : List EBlock :=
  let maxTokens := cfgBlockSize cfg
  let turnText := joinSep "\n\n" (turn.map (fun e => extractMessageText e.message))
  if estimateTokens turnText ≤ maxTokens then [finalizeEntryBlock turn]
  else packLoopGo maxTokens (maxTokens * 4) turn.length turn [] 0

/-- `groupEntriesIntoBlocks(branchEntries, startIndex)` (compaction path;
tool pairs are never split across blocks). -/
def groupEntriesIntoBlocks (cfg : Config) (entries : List BranchEntry)
    (startIndex : Nat) : List EBlock :=
  (turnsGo (entrySeq entries startIndex) []).flatMap (blocksOfTurn cfg)

/-! ### Cache, archive and compression -/

/-- A compression-cache entry: compressed text plus raw/compressed token
counts. -/
structure CacheEntry where
  compressed : String
  tokensRaw : Nat
  tokensCompressed : Nat
deriving DecidableEq

/-- The in-memory block cache (`messageCache`), content-hash keyed. -/
def Cache := List (String × CacheEntry)

instance : DecidableEq Cache := inferInstanceAs (DecidableEq (List (String × CacheEntry)))

/-- `messageCache.get(hash)`. -/
def cacheGet (c : Cache) (k : String) : Option CacheEntry := List.lookup k c

/-- `messageCache.set(hash, entry)` (map update). The list is read only
through first-match `lookup`, so prepending the new binding is
observationally the map update. -/
def cacheSet (c : Cache) (k : String) (v : CacheEntry) : Cache :=
  (k, v) :: c

/-- A durable key→content store (the raw-block archive directory and the
`memory/archive` directory are both modelled this way). -/
def Archive := List (String × String)

instance : DecidableEq Archive := inferInstanceAs (DecidableEq (List (String × String)))

/-- Write-if-absent, mirroring `if (!fs.existsSync(filepath)) writeFile`. -/
def archivePut (a : Archive) (k v : String) : Archive :=
  match List.lookup k a with
  | some _ => a
  | none => (k, v) :: a

/-- `archiveRawBlock(hash, rawText)`: durable raw snapshot keyed by hash. -/
def archiveRawBlock (a : Archive) (hash rawText : String) : Archive :=
  archivePut a hash rawText

/-- Outcome of one external compression call (the provider collaborator). -/
inductive ProviderOutcome where
  | error
  | ok (text : String)

/-- `compressSingleBlock(rawText)`, with the provider call abstracted as an
`outcome`. The camouflage routing's key resolution is subsumed by
`hasKey`. `20c ≥ 19r` is the exact form of
`compressedTokens >= rawTokens * 0.95`. -/
def compressSingleBlock (cfg : Config) (hasClient hasKey : Bool)
    (outcome : ProviderOutcome) (rawText : String) : Option CacheEntry :=
  if ¬hasClient ∨ ¬hasKey then none
  else
    let rawTokens := estimateTokens rawText
    if rawText.length < cfg.minCompressChars then
      some ⟨rawText, rawTokens, rawTokens⟩
    else match outcome with
      | .error => none
      | .ok compressed =>
        let compressedTokens := estimateTokens compressed
        if 20 * compressedTokens ≥ 19 * rawTokens then
          some ⟨rawText, rawTokens, rawTokens⟩
        else some ⟨compressed, rawTokens, compressedTokens⟩

/-! ### Background compression queue (`queueBlock` / `processQueue`) -/

/-- The state touched by the turn-completion (background) path. -/
structure BgState where
  cache : Cache
  queue : List (String × String)
  archive : Archive
  deferredMin : Nat
deriving DecidableEq

/-- `processQueue()`: drain the queue, archiving each block's raw text.
Since V5.0.1 (Fix 3) no compression call is made here. -/
def processQueue (st : BgState) : BgState :=
  { st with
    queue := []
    archive := st.queue.foldl (fun a item => archiveRawBlock a item.2 item.1) st.archive }

/-- `queueBlock(block)`. -/
def queueBlock (cfg : Config) (hasClient hasKey : Bool) (b : MBlock)
    (st : BgState) : BgState :=
  if ¬cfg.enabled ∨ ¬hasClient ∨ ¬hasKey then st
  else if (cacheGet st.cache b.hash).isSome then st
  else if b.text.length < cfg.minCompressChars then
    { st with cache := cacheSet st.cache b.hash ⟨b.text, b.tokens, b.tokens⟩ }
  else
    processQueue
      { st with
        queue := st.queue ++ [(b.text, b.hash)]
        deferredMin := if st.deferredMin > 0 then 0 else st.deferredMin }

/-! ### Compaction swap planner -/

/-- `Math.ceil(tokens * 0.6)`: the conservative compressed-size estimate
for an uncached block, in exact rational form. -/
def ceil06 (t : Nat) : Nat := (3 * t + 4) / 5

/-- Estimated savings for swapping one block: raw tokens minus the cached
compressed token count, or minus the conservative estimate if uncached. -/
def blockSavings (cache : Cache) (b : EBlock) : Int :=
  (b.tokens : Int) -
    (match cacheGet cache b.hash with
     | some e => (e.tokensCompressed : Int)
     | none => (ceil06 b.tokens : Int))

/-- The planner's walk: `for i: if totalSaved >= overflow break;
totalSaved += savings; blocksToSwap = i + 1`. -/
def swapWalk (cache : Cache) (overflow : Int) : List EBlock → Int → Nat → Nat
  | [], _, count => count
  | b :: rest, saved, count =>
    if saved ≥ overflow then count
    else swapWalk cache overflow rest (saved + blockSavings cache b) (count + 1)

/-- The raw (pre-clamp) swap count. -/
def blocksToSwapRaw (cache : Cache) (overflow : Int) (blocks : List EBlock) : Nat :=
  swapWalk cache overflow blocks 0 0

/-- Index of the last `compaction` entry, if any. -/
def prevCompactionIndex (entries : List BranchEntry) : Option Nat :=
  ((entries.enum.filter fun p =>
      match p.2.kind with | .compaction _ => true | _ => false).map Prod.fst).getLast?

/-- Summary of the last `compaction` entry, if any. -/
def prevCompactionSummary (entries : List BranchEntry) : Option String :=
  (entries.filterMap fun e =>
    match e.kind with | .compaction s => some s | _ => none).getLast?

/-- The start index of the span to segment: one past the last compaction
entry, else 0. -/
def spanStart (entries : List BranchEntry) : Nat :=
  ((prevCompactionIndex entries).map (· + 1)).getD 0

/-- All blocks of the current span. -/
def allBlocksOf (cfg : Config) (entries : List BranchEntry) : List EBlock :=
  groupEntriesIntoBlocks cfg entries (spanStart entries)

/-- The swap-eligible blocks: `allBlocks.filter(b => b.tokens >= minTokens)`
(Fix 2, no-op swap prevention). -/
def eligibleBlocks (cfg : Config) (entries : List BranchEntry) : List EBlock :=
  (allBlocksOf cfg entries).filter (fun b => b.tokens ≥ cfgMinSwapTokens cfg)

/-- Outcome of the synchronous planning prefix of `handleBeforeCompact`
(up to the swap plan / cancel decision). `cancel` records the value of
`deferredCompactionMinBlocks` after the round. -/
inductive PlanOutcome where
  | disabled
  | cancel (newDeferredMin : Nat)
  | plan (toSwap toKeepRaw : List EBlock) (firstKeptEntryId : String)
deriving DecidableEq

/-- The clamped swap count: the walk's count, bumped to 1 if 0
(`if (blocksToSwap === 0) blocksToSwap = 1`), then clamped so that at
least the most recent block stays raw
(`if (blocksToSwap >= blocks.length) blocksToSwap = blocks.length - 1`). -/
def swapCount (cache : Cache) (overflow : Int) (blocks : List EBlock) : Nat :=
  if (if blocksToSwapRaw cache overflow blocks = 0 then 1
      else blocksToSwapRaw cache overflow blocks) ≥ blocks.length then
    blocks.length - 1
  else if blocksToSwapRaw cache overflow blocks = 0 then 1
  else blocksToSwapRaw cache overflow blocks

/-- The overflow `tokensBefore − compressTrigger` as a signed quantity. -/
def overflowOf (cfg : Config) (tokensBefore : Nat) : Int :=
  (tokensBefore : Int) - (cfg.compressTrigger : Int)

/-- The clamped swap count applied to the round's eligible blocks. -/
def planSwapN (cfg : Config) (entries : List BranchEntry) (tokensBefore : Nat)
    (cache : Cache) : Nat :=
  swapCount cache (overflowOf cfg tokensBefore) (eligibleBlocks cfg entries)

/-- `firstKeptEntryId`: the first entry of the first block kept raw, or
(dead branch, since a block is always kept) the last entry of the span. -/
def planFirstKeptId (cfg : Config) (entries : List BranchEntry) (tokensBefore : Nat)
    (cache : Cache) : String :=
  match ((eligibleBlocks cfg entries).drop (planSwapN cfg entries tokensBefore cache)).head? with
  | some b => b.firstEntryId
  | none => ((entries.getLast?).map BranchEntry.id).getD ""

/-- The planning prefix of `handleBeforeCompact`: guard checks, span
segmentation, tiny-block filtering, deferred-retry check, overflow
computation, the oldest-first savings walk, and the keep-last-block
clamps. -/
def compactionPlan (cfg : Config) (hasClient hasKey : Bool)
    (entries : List BranchEntry) (tokensBefore : Nat) (cache : Cache)
    (deferredMin : Nat) : PlanOutcome :=
  if ¬cfg.enabled then .disabled
  else if entries.isEmpty then .cancel deferredMin
  else if ¬hasClient ∨ ¬hasKey then .cancel deferredMin
  else if (eligibleBlocks cfg entries).isEmpty then .cancel deferredMin
  else if deferredMin > 0 ∧ (eligibleBlocks cfg entries).length < deferredMin then
    .cancel deferredMin
  else if overflowOf cfg tokensBefore ≤ 0 then .cancel deferredMin
  else if planSwapN cfg entries tokensBefore cache = 0 then .cancel 2
  else if planFirstKeptId cfg entries tokensBefore cache = "" then .cancel 0
  else
    .plan ((eligibleBlocks cfg entries).take (planSwapN cfg entries tokensBefore cache))
      ((eligibleBlocks cfg entries).drop (planSwapN cfg entries tokensBefore cache))
      (planFirstKeptId cfg entries tokensBefore cache)

/-! ### Swap resolution (cache hits, on-demand compression, fallback) -/

/-- Result of resolving the swapped blocks' compressed forms. -/
structure SwapResolution where
  cache : Cache
  archive : Archive
  slots : List (String × CacheEntry)
  totalRaw : Nat

/-- One step of the miss-filling pass: a cache hit contributes its cached
entry; a miss is compressed on demand (raw-text fallback on failure) and
the result is written to the cache either way. -/
def resolveStep (cfg : Config) (hasClient hasKey : Bool)
    (oracle : String → ProviderOutcome)
    (st : Cache × List (String × CacheEntry)) (bo : EBlock × Option CacheEntry) :
    Cache × List (String × CacheEntry) :=
  match bo.2 with
  | some e => (st.1, st.2 ++ [(bo.1.hash, e)])
  | none =>
    (cacheSet st.1 bo.1.hash
        ((compressSingleBlock cfg hasClient hasKey (oracle bo.1.text) bo.1.text).getD
          ⟨bo.1.text, bo.1.tokens, bo.1.tokens⟩),
      st.2 ++ [(bo.1.hash,
        (compressSingleBlock cfg hasClient hasKey (oracle bo.1.text) bo.1.text).getD
          ⟨bo.1.text, bo.1.tokens, bo.1.tokens⟩)])

/-- The swap-resolution phase of `handleBeforeCompact`: archive each
swapped block's raw text, look up its cached compressed form against the
pre-round cache, then fill the misses. The bounded-parallel batching
affects scheduling only, so it is modelled as a left-to-right pass. -/
def resolveSwap (cfg : Config) (hasClient hasKey : Bool)
    (oracle : String → ProviderOutcome) (toSwap : List EBlock)
    (cache : Cache) (archive : Archive) : SwapResolution :=
  let archive1 := toSwap.foldl (fun a b => archiveRawBlock a b.hash b.text) archive
  let lookups := toSwap.map (fun b => (b, cacheGet cache b.hash))
  let filled := lookups.foldl (resolveStep cfg hasClient hasKey oracle) (cache, [])
  { cache := filled.1, archive := archive1, slots := filled.2,
    totalRaw := (toSwap.map EBlock.tokens).sum }

/-! ### History, eviction and archival -/

/-- One compaction-history entry. -/
structure HistEntry where
  compressed : String
  tokensRaw : Nat
  tokensCompressed : Nat
  timestamp : Nat
deriving DecidableEq

/-- The tracked running total: base overhead 20 plus, per entry, its
compressed token count plus a fixed overhead of 15. -/
def historyTotal (history : List HistEntry) : Nat :=
  20 + (history.map (fun e => e.tokensCompressed + 15)).sum

/-- Zero-padded decimal rendering. -/
def padNum (width n : Nat) : String :=
  let s := toString n
  String.mk (List.replicate (width - s.length) '0') ++ s

/-- Gregorian civil date from days since 1970-01-01 (UTC), as computed by
`Date.prototype.toISOString`. -/
def civilFromDays (days : Nat) : Nat × Nat × Nat :=
  let z := days + 719468
  let era := z / 146097
  let doe := z % 146097
  let yoe := (doe - doe / 1460 + doe / 36524 - doe / 146096) / 365
  let y := yoe + era * 400
  let doy := doe - (365 * yoe + yoe / 4 - yoe / 100)
  let mp := (5 * doy + 2) / 153
  let d := doy - (153 * mp + 2) / 5 + 1
  let m := if mp < 10 then mp + 3 else mp - 9
  (if m ≤ 2 then y + 1 else y, m, d)

/-- `new Date(ms).toISOString().slice(0, 10)`. -/
def isoDate (ms : Nat) : String :=
  let c := civilFromDays (ms / 86400000)
  padNum 4 c.1 ++ "-" ++ padNum 2 c.2.1 ++ "-" ++ padNum 2 c.2.2

/-- `new Date(ms).toISOString()`. -/
def isoDateTime (ms : Nat) : String :=
  let rem := ms % 86400000
  isoDate ms ++ "T" ++ padNum 2 (rem / 3600000) ++ ":" ++
    padNum 2 (rem % 3600000 / 60000) ++ ":" ++ padNum 2 (rem % 60000 / 1000) ++
    "." ++ padNum 3 (ms % 1000) ++ "Z"

/-- An eight-character content hash of the compressed text
(`sha256(...).slice(0, 8)` in the source), identity model as explained in
the module docstring. -/
def hash8 (s : String) : String := s

/-- The content- and date-derived archive file name
`rmem-<date>-<hash8>.md` of an evicted entry. -/
def evictName (e : HistEntry) : String :=
  "rmem-" ++ isoDate e.timestamp ++ "-" ++ hash8 e.compressed ++ ".md"

/-- The markdown header written before an evicted entry's compressed
text. -/
def evictHeader (sessionId : String) (e : HistEntry) : String :=
  "# R-Memory Archive Block\n- **Date:** " ++ isoDateTime e.timestamp ++
    "\n- **Session:** " ++ (if sessionId = "" then "unknown" else sessionId) ++
    "\n- **Tokens:** " ++ toString e.tokensCompressed ++ " compressed (was " ++
    toString e.tokensRaw ++ " raw)\n\n---\n\n"

/-- `archiveEvictedBlock(block)`: write the evicted entry's compressed
text (with header) under its content- and date-derived name, if absent. -/
def archiveEvictedBlock (sessionId : String) (arch : Archive) (e : HistEntry) : Archive :=
  archivePut arch (evictName e) (evictHeader sessionId e ++ e.compressed)

/-- The `while (totalTokens > evictTrigger && history.length > 0)` loop of
`applyFifoEviction`, threading the tracked running total. -/
def evictLoop (E : Nat) (sessionId : String) :
    List HistEntry → Nat → Archive → List HistEntry × Archive
  | [], _, arch => ([], arch)
  | oldest :: rest, total, arch =>
    if total > E then
      evictLoop E sessionId rest (total - (oldest.tokensCompressed + 15))
        (archiveEvictedBlock sessionId arch oldest)
    else (oldest :: rest, arch)

/-- `applyFifoEviction()`. -/
def applyFifoEviction (E : Nat) (sessionId : String) (history : List HistEntry)
    (arch : Archive) : List HistEntry × Archive :=
  evictLoop E sessionId history (historyTotal history) arch

/-- Render the full accumulated history as the replacement payload (all
entries as dated sections). -/
def renderHistory (history : List HistEntry) : String :=
  let histCompressed := (history.map HistEntry.tokensCompressed).sum
  let histRaw := (history.map HistEntry.tokensRaw).sum
  let header := ["# R-Memory: Compressed Conversation History",
    "_" ++ toString history.length ++ " blocks | ~" ++ toString histCompressed ++
      " tokens (was ~" ++ toString histRaw ++ " raw)_", ""]
  let sections := (history.enum.map fun p =>
    ["## Block " ++ toString (p.1 + 1) ++ " [" ++ (isoDateTime p.2.timestamp).take 16 ++ "]",
     p.2.compressed, ""]).flatten
  joinSep "\n" (header ++ sections)

/-! ### The full compaction handler -/

/-- The engine state read and written by the compaction handler. -/
structure EngineState where
  cache : Cache
  rawArchive : Archive
  history : List HistEntry
  memArchive : Archive
  deferredMin : Nat
deriving DecidableEq

/-- The handler's return value to the host: `undefined` (disabled),
`{cancel: true}`, or a compaction payload. -/
inductive HandlerResult where
  | disabled
  | cancel
  | compaction (summary : String) (firstKeptEntryId : String) (tokensBefore : Nat)
deriving DecidableEq

/-- `handleBeforeCompact(event)` as a state transformer: the planning
prefix, then (on the plan path) preservation of the previous compaction
summary into a fresh history, swap resolution, history append, FIFO
eviction, and payload rendering. `now` stands for `Date.now()` and
`oracle` for the provider. The cooperative cancellation signal, which
only makes the handler return early without a payload, is not modelled. -/
def handleBeforeCompact (cfg : Config) (hasClient hasKey : Bool)
    (oracle : String → ProviderOutcome) (sessionId : String) (now : Nat)
    (entries : List BranchEntry) (tokensBefore : Nat) (st : EngineState) :
    HandlerResult × EngineState :=
  match compactionPlan cfg hasClient hasKey entries tokensBefore st.cache st.deferredMin with
  | .disabled => (.disabled, st)
  | .cancel d => (.cancel, { st with deferredMin := d })
  | .plan toSwap _toKeepRaw firstKeptEntryId =>
    let startHist :=
      if st.history.isEmpty then
        match prevCompactionSummary entries with
        | some s =>
          if s = "" then [] else [⟨s, estimateTokens s, estimateTokens s, now - 1⟩]
        | none => []
      else st.history
    let res := resolveSwap cfg hasClient hasKey oracle toSwap st.cache st.rawArchive
    let parts := res.slots.map (fun s => s.2.compressed)
    let newBlock := joinSep "\n\n---\n\n" parts
    let hist1 := startHist ++ [⟨newBlock, res.totalRaw, estimateTokens newBlock, now⟩]
    let evicted := applyFifoEviction cfg.evictTrigger sessionId hist1 st.memArchive
    (.compaction (renderHistory evicted.1) firstKeptEntryId tokensBefore,
      { cache := res.cache, rawArchive := res.archive, history := evicted.1,
        memArchive := evicted.2, deferredMin := 0 })

/-! ### Derived notions used in the theorem statements -/

/-- Cumulative estimated savings over the first `k` blocks. -/
def cumSavings (cache : Cache) (blocks : List EBlock) (k : Nat) : Int :=
  ((blocks.take k).map (blockSavings cache)).sum

/-- The index at which the walk first sees accumulated savings reach the
overflow (recursive form of the planner loop's exit point). -/
def firstReach (cache : Cache) (overflow : Int) : List EBlock → Int → Nat
  | [], _ => 0
  | b :: rest, saved =>
    if saved ≥ overflow then 0
    else firstReach cache overflow rest (saved + blockSavings cache b) + 1

/-- The messages of the span handed to the compaction grouping (all
non-null messages from `startIndex` on). -/
def spanMsgs (entries : List BranchEntry) (startIndex : Nat) : List Msg :=
  (entries.drop startIndex).filterMap getMessageFromEntry

/-- The span's content: its messages' rendered texts, joined the way block
texts are joined. -/
def spanText (entries : List BranchEntry) (startIndex : Nat) : String :=
  joinSep "\n\n" ((spanMsgs entries startIndex).map extractMessageText)

/-- The slot produced for one swapped block by the swap-resolution pass,
as a function of its precomputed cache lookup. -/
def slotResolve (cfg : Config) (hasClient hasKey : Bool)
    (oracle : String → ProviderOutcome) (p : EBlock × Option CacheEntry) :
    String × CacheEntry :=
  match p.2 with
  | some e => (p.1.hash, e)
  | none =>
    (p.1.hash,
      (compressSingleBlock cfg hasClient hasKey (oracle p.1.text) p.1.text).getD
        ⟨p.1.text, p.1.tokens, p.1.tokens⟩)

/-- Host-normalized message sequences: a user-role message never itself
carries a tool-result payload (in the host's internal format tool results
arrive as `toolResult`-role messages, never inside a `user` message). -/
def normalizedSeq (l : List IEntry) : Bool :=
  l.all fun e => !(e.message.role == "user") || !hasToolResult e.message

/-! ### Concrete inputs used in counterexamples, scenarios and witnesses -/

/-- A short user message. -/
def exUserMsg : Msg := { role := "user", content := .str "x" }

/-- An assistant message carrying one tool invocation. -/
def exToolCallMsg : Msg := { role := "assistant", content := .arr [.toolCall "f" "1"] }

/-- The tool result answering `exToolCallMsg`. -/
def exToolResultMsg : Msg := { role := "toolResult", content := .str "r" }

/-- Branch entries wrapping the three example messages. -/
def exEntryU : BranchEntry := { id := "e0", kind := .message exUserMsg }

def exEntryA : BranchEntry := { id := "e1", kind := .message exToolCallMsg }

def exEntryR : BranchEntry := { id := "e2", kind := .message exToolResultMsg }

/-- A branch entry holding a previous compaction summary. -/
def exEntryS : BranchEntry := { id := "s0", kind := .compaction "S" }

/-- A fabricated block of a given hash and token count (the planner reads
only these two fields). -/
def mkPlanBlock (h : String) (t : Nat) : EBlock :=
  { entries := [], firstEntryId := "k", firstEntryIndex := 0,
    text := h, hash := h, tokens := t }

/-- Scenario C blocks: sizes [5000, 4000, 4000, 3000]. -/
def scBlocks : List EBlock :=
  [mkPlanBlock "h1" 5000, mkPlanBlock "h2" 4000, mkPlanBlock "h3" 4000,
   mkPlanBlock "h4" 3000]

/-- Scenario C cache: compressed sizes 2000 and 1800 for the two oldest
blocks, nothing for the others. -/
def scCache : Cache :=
  [("h1", ⟨"c1", 5000, 2000⟩), ("h2", ⟨"c2", 4000, 1800⟩)]

/-- A configuration with a tiny minimum-compress threshold, so that short
example blocks are above it (and a compression call is attempted). -/
def cfgSmall : Config := { minCompressChars := 4 }

/-- The example user message as a turn-completion-path block (its
10-character text is above `cfgSmall`'s threshold). -/
def exBlockU : MBlock := finalizeBlock [exUserMsg]

/-- The example user message as an entry-path block. -/
def exEBlockU : EBlock := finalizeEntryBlock [⟨0, "e0", exUserMsg⟩]

/-- The empty background state. -/
def emptyBg : BgState := { cache := [], queue := [], archive := [], deferredMin := 0 }

/-- The three example messages as a branch-entry span. -/
def exEntries3 : List BranchEntry := [exEntryU, exEntryA, exEntryR]

/-- A configuration under which `exEntries3` yields two eligible blocks
and a positive overflow at `tokensBefore = 100`. -/
def cfgPlanEx : Config := { blockSize := 20, compressTrigger := 10, minSwapTokens := 1 }

/-- A one-entry compaction history (compressed size 30). -/
def exHist1 : HistEntry := ⟨"c", 100, 30, 0⟩

/-- A branch entry that yields a non-summary message (the entries the
compaction grouping neither skips nor filters). -/
def cleanEntry (be : BranchEntry) : Bool :=
  match getMessageFromEntry be with
  | some m => !isSummaryRole m
  | none => false

/-! ## Helper lemmas -/

theorem cacheGet_set_self (c : Cache) (k : String) (v : CacheEntry) :
    cacheGet (cacheSet c k v) k = some v := by
  simp [cacheGet, cacheSet, List.lookup]

theorem cacheGet_set_ne (c : Cache) (k k' : String) (v : CacheEntry) (h : k' ≠ k) :
    cacheGet (cacheSet c k v) k' = cacheGet c k' := by
  simp [cacheGet, cacheSet, List.lookup, beq_false_of_ne h]

theorem cacheGet_set_isSome (c : Cache) (k k' : String) (v : CacheEntry)
    (h : (cacheGet c k').isSome) : (cacheGet (cacheSet c k v) k').isSome := by
  by_cases hk : k' = k
  · subst hk; rw [cacheGet_set_self]; rfl
  · rwa [cacheGet_set_ne c k k' v hk]

theorem archivePut_lookup_isSome (a : Archive) (k v : String) :
    (List.lookup k (archivePut a k v)).isSome := by
  unfold archivePut
  cases h : List.lookup k a with
  | some w => simp [h]
  | none => simp [List.lookup]

theorem archivePut_preserves_isSome (a : Archive) (k k' v : String)
    (h : (List.lookup k' a).isSome) : (List.lookup k' (archivePut a k v)).isSome := by
  unfold archivePut
  cases hk : List.lookup k a with
  | some w => exact h
  | none =>
    by_cases he : k' = k
    · subst he; simp [List.lookup]
    · simpa [List.lookup, beq_false_of_ne he] using h

theorem archivePut_of_isSome (a : Archive) (k v : String)
    (h : (List.lookup k a).isSome) : archivePut a k v = a := by
  unfold archivePut
  cases hk : List.lookup k a with
  | some w => rfl
  | none => rw [hk] at h; exact absurd h (by simp)

/-! ## C1 — tool-pairing invariant -/

/-- C1, counterexample. The claim asserts the tool-pairing invariant for
*both* segmentation entry points. On the turn-completion path
(`groupMessagesIntoBlocks`), which has no pairing logic, an oversized turn
is split at an arbitrary message boundary: with block budget 20, the turn
[user, assistant-tool-invocation, tool-result] is split into a Block
holding the invocation and a separate Block holding its result. -/
theorem c1_tool_pairing_counterexample :
    ∃ B1 B2,
      groupMessagesIntoBlocks { blockSize := 20 }
          [exUserMsg, exToolCallMsg, exToolResultMsg] = [B1, B2] ∧
      B1.messages = [exUserMsg, exToolCallMsg] ∧
      B2.messages = [exToolResultMsg] ∧
      hasToolUse exToolCallMsg = true ∧
      hasToolResult exToolResultMsg = true ∧
      exToolResultMsg ∉ B1.messages := by
  refine ⟨finalizeBlock [exUserMsg, exToolCallMsg], finalizeBlock [exToolResultMsg],
    by decide, by decide, by decide, by decide, by decide, by decide⟩

/-! ## C5 — concatenation reproduces the span -/

/-- C5, counterexample. Concatenating the emitted Blocks' texts (with or
without the separator) does not reproduce the span's content: grouping
skips `compactionSummary`/`branchSummary` messages entirely, so a span
containing a previous compaction summary loses that content. -/
theorem c5_concat_counterexample :
    joinSep "\n\n" ((groupEntriesIntoBlocks {} [exEntryU, exEntryS] 0).map EBlock.text)
        ≠ spanText [exEntryU, exEntryS] 0 ∧
    String.join ((groupEntriesIntoBlocks {} [exEntryU, exEntryS] 0).map EBlock.text)
        ≠ spanText [exEntryU, exEntryS] 0 := by
  constructor <;> decide

/-! ## C4 — background archival and compression -/

/-- C4, counterexample. The claim asserts that an uncached newly segmented
Block is enqueued and the background worker produces a compressed cache
entry for its hash. Since V5.0.1 (Fix 3) the worker only archives: for an
uncached 200-character block, after `queueBlock` + `processQueue` the
cache still has no entry for the hash (the archive does). -/
theorem c4_background_counterexample :
    cacheGet (queueBlock cfgSmall true true exBlockU emptyBg).cache exBlockU.hash = none ∧
    (queueBlock cfgSmall true true exBlockU emptyBg).archive
      = [(exBlockU.hash, exBlockU.text)] ∧
    (queueBlock cfgSmall true true exBlockU emptyBg).queue = [] := by
  refine ⟨?_, ?_, ?_⟩ <;> decide

/-! ## C6 — per-block compression failure -/

/-- C6, counterexample. The claim asserts that a Block whose compression
call fails is left uncached (to be retried). In fact the compaction
handler stores a fallback cache entry holding the Block's raw text under
the Block's hash, so the Block does not remain uncached. -/
theorem c6_failure_uncached_counterexample :
    cacheGet (resolveSwap cfgSmall true true (fun _ => .error) [exEBlockU]
        ([] : Cache) ([] : Archive)).cache exEBlockU.hash
      = some ⟨exEBlockU.text, exEBlockU.tokens, exEBlockU.tokens⟩ := by
  decide

/-! ## C9 — capability unavailable cancels unconditionally -/

/-- C9: if the compression capability is entirely unavailable (no usable
provider client or no resolved credentials), the enabled handler returns a
cancellation before selecting or swapping any Block, leaving the whole
engine state (cache, history, archives, deferral) unchanged. -/
theorem c9_capability_unavailable_cancels (cfg : Config) (hasClient hasKey : Bool)
    (oracle : String → ProviderOutcome) (sessionId : String) (now : Nat)
    (entries : List BranchEntry) (tokensBefore : Nat) (st : EngineState)
    (hen : cfg.enabled = true) (hcap : hasClient = false ∨ hasKey = false) :
    handleBeforeCompact cfg hasClient hasKey oracle sessionId now entries tokensBefore st
      = (.cancel, st) := by
  have hplan : compactionPlan cfg hasClient hasKey entries tokensBefore st.cache st.deferredMin
      = .cancel st.deferredMin := by
    unfold compactionPlan
    by_cases hemp : entries.isEmpty <;>
      rcases hcap with h | h <;> subst h <;> simp [hen, hemp]
  unfold handleBeforeCompact
  rw [hplan]

/-- C9, witness. -/
theorem c9_capability_unavailable_cancels_witness :
    handleBeforeCompact {} false true (fun _ => .error) "s" 0 [exEntryU] 40000
        ⟨[], [], [], [], 0⟩
      = (.cancel, ⟨[], [], [], [], 0⟩) :=
  c9_capability_unavailable_cancels {} false true (fun _ => .error) "s" 0 [exEntryU]
    40000 ⟨[], [], [], [], 0⟩ rfl (Or.inl rfl)

/-! ## C2 — the swap planner's walk -/

theorem swapWalk_eq_firstReach (cache : Cache) (overflow : Int) :
    ∀ (l : List EBlock) (saved : Int) (count : Nat),
      swapWalk cache overflow l saved count = count + firstReach cache overflow l saved := by
  intro l
  induction l with
  | nil => intro saved count; simp [swapWalk, firstReach]
  | cons b rest ih =>
    intro saved count
    by_cases h : saved ≥ overflow
    · simp [swapWalk, firstReach, h]
    · simp only [swapWalk, firstReach, if_neg h, ih]
      omega

theorem firstReach_reaches (cache : Cache) (overflow : Int) :
    ∀ (l : List EBlock) (saved : Int),
      (∃ k, k ≤ l.length ∧
        overflow ≤ saved + ((l.take k).map (blockSavings cache)).sum) →
      overflow ≤ saved +
        ((l.take (firstReach cache overflow l saved)).map (blockSavings cache)).sum := by
  intro l
  induction l with
  | nil =>
    intro saved h
    obtain ⟨k, hk, hs⟩ := h
    have hk0 : k = 0 := Nat.le_zero.mp (by simpa using hk)
    subst hk0
    simpa [firstReach] using hs
  | cons b rest ih =>
    intro saved h
    by_cases hge : saved ≥ overflow
    · simp only [firstReach, if_pos hge, List.take_zero, List.map_nil, List.sum_nil,
        add_zero]
      exact hge
    · obtain ⟨k, hk, hs⟩ := h
      cases k with
      | zero => simp at hs; omega
      | succ k' =>
        simp only [firstReach, if_neg hge, List.take_succ_cons, List.map_cons,
          List.sum_cons]
        have := ih (saved + blockSavings cache b)
          ⟨k', by simpa using hk, by
            simp only [List.take_succ_cons, List.map_cons, List.sum_cons] at hs
            omega⟩
        omega

theorem firstReach_minimal (cache : Cache) (overflow : Int) :
    ∀ (l : List EBlock) (saved : Int) (j : Nat),
      j < firstReach cache overflow l saved →
      saved + ((l.take j).map (blockSavings cache)).sum < overflow := by
  intro l
  induction l with
  | nil => intro saved j h; simp [firstReach] at h
  | cons b rest ih =>
    intro saved j h
    by_cases hge : saved ≥ overflow
    · simp [firstReach, hge] at h
    · rw [firstReach, if_neg hge] at h
      cases j with
      | zero => simpa using lt_of_not_ge hge
      | succ j' =>
        have := ih (saved + blockSavings cache b) j' (by omega)
        simp only [List.take_succ_cons, List.map_cons, List.sum_cons]
        omega

/-- C2: the planner walks the swap-eligible Blocks oldest-first, each
block's estimated savings being its raw token count minus the cached
compressed token count when a cache entry exists (else minus the
conservative `ceil(0.6·raw)` estimate — see `blockSavings`), and the raw
swap count is the number of Blocks walked when the cumulative savings
first reach the overflow: cumulative savings at the count reach the
overflow and at every earlier count they do not. In the Scenario C
instance (T = 36000, before = 40000, blocks [5000,4000,4000,3000] with
cached compressed sizes [2000,1800,—,—]) the clamped swap count is
exactly 2 and blocks 3 and 4 remain raw. -/
theorem c2_swap_planner_first_reach :
    (∀ (cache : Cache) (overflow : Int) (blocks : List EBlock),
      0 < overflow →
      (∃ k, k ≤ blocks.length ∧ overflow ≤ cumSavings cache blocks k) →
      overflow ≤ cumSavings cache blocks (blocksToSwapRaw cache overflow blocks) ∧
      ∀ j < blocksToSwapRaw cache overflow blocks,
        cumSavings cache blocks j < overflow) ∧
    blockSavings scCache (mkPlanBlock "h1" 5000) = 3000 ∧
    blockSavings scCache (mkPlanBlock "h2" 4000) = 2200 ∧
    swapCount scCache ((40000 : Int) - 36000) scBlocks = 2 ∧
    scBlocks.take (swapCount scCache ((40000 : Int) - 36000) scBlocks)
      = [mkPlanBlock "h1" 5000, mkPlanBlock "h2" 4000] ∧
    scBlocks.drop (swapCount scCache ((40000 : Int) - 36000) scBlocks)
      = [mkPlanBlock "h3" 4000, mkPlanBlock "h4" 3000] := by
  refine ⟨?_, by decide, by decide, by decide, by decide, by decide⟩
  intro cache overflow blocks hpos hex
  have heq : blocksToSwapRaw cache overflow blocks
      = firstReach cache overflow blocks 0 := by
    simpa using swapWalk_eq_firstReach cache overflow blocks 0 0
  constructor
  · have := firstReach_reaches cache overflow blocks 0 (by simpa [cumSavings] using hex)
    rw [heq]
    simpa [cumSavings] using this
  · intro j hj
    rw [heq] at hj
    have := firstReach_minimal cache overflow blocks 0 j hj
    simpa [cumSavings] using this

/-- C2, witness: the general part applied to the Scenario C inputs. -/
theorem c2_swap_planner_first_reach_witness :
    (0 : Int) < 4000 ∧
    ((4000 : Int) ≤ cumSavings scCache scBlocks (blocksToSwapRaw scCache 4000 scBlocks) ∧
      ∀ j < blocksToSwapRaw scCache 4000 scBlocks, cumSavings scCache scBlocks j < 4000) :=
  ⟨by decide,
    c2_swap_planner_first_reach.1 scCache 4000 scBlocks (by decide)
      ⟨2, by decide, by decide⟩⟩

/-! ## C3 / C10 — plan structure -/

theorem swapCount_lt_length (cache : Cache) (overflow : Int) (blocks : List EBlock)
    (hne : blocks ≠ []) : swapCount cache overflow blocks < blocks.length := by
  have hpos : 0 < blocks.length := List.length_pos.mpr hne
  unfold swapCount
  split <;> split <;> omega

theorem swapCount_of_length_one (cache : Cache) (overflow : Int) (blocks : List EBlock)
    (h : blocks.length = 1) : swapCount cache overflow blocks = 0 := by
  unfold swapCount
  rw [h]
  split <;> split <;> omega

/-- On the plan path, `toSwap`/`toKeepRaw` are the first `n` and the
remaining eligible blocks, for the clamped swap count `n`, which is
nonzero and strictly below the number of eligible blocks. -/
theorem compactionPlan_plan_structure
    (cfg : Config) (hasClient hasKey : Bool) (entries : List BranchEntry)
    (tokensBefore : Nat) (cache : Cache) (deferredMin : Nat)
    (toSwap toKeepRaw : List EBlock) (fid : String)
    (h : compactionPlan cfg hasClient hasKey entries tokensBefore cache deferredMin
        = .plan toSwap toKeepRaw fid) :
    planSwapN cfg entries tokensBefore cache ≠ 0 ∧
    planSwapN cfg entries tokensBefore cache < (eligibleBlocks cfg entries).length ∧
    toSwap = (eligibleBlocks cfg entries).take (planSwapN cfg entries tokensBefore cache) ∧
    toKeepRaw
      = (eligibleBlocks cfg entries).drop (planSwapN cfg entries tokensBefore cache) := by
  unfold compactionPlan at h
  split_ifs at h with h1 h2 h3 h4 h5 h6 h7 h8 <;> try exact PlanOutcome.noConfusion h
  injection h with ht hk hf
  have hne : eligibleBlocks cfg entries ≠ [] := by
    simpa [List.isEmpty_iff] using h4
  exact ⟨h7, swapCount_lt_length cache (overflowOf cfg tokensBefore) _ hne, ht.symm, hk.symm⟩

/-- C3: every compaction round that returns a replacement payload keeps at
least one Block raw; the kept Blocks are exactly the most recent suffix of
the eligible-block sequence, so the Block containing the last entry of the
span (the last block, which if swap-eligible is the last element of that
sequence, and otherwise is excluded from swapping altogether) is never
among the swapped Blocks; and when honouring this would force the swap
count to zero while the overflow is unresolved (a single eligible block),
the round cancels instead. -/
theorem c3_most_recent_block_stays_raw :
    (∀ (cfg : Config) (hasClient hasKey : Bool) (entries : List BranchEntry)
        (tokensBefore : Nat) (cache : Cache) (deferredMin : Nat)
        (toSwap toKeepRaw : List EBlock) (fid : String),
      compactionPlan cfg hasClient hasKey entries tokensBefore cache deferredMin
          = .plan toSwap toKeepRaw fid →
      toKeepRaw ≠ [] ∧
      ∃ n, n ≠ 0 ∧ n < (eligibleBlocks cfg entries).length ∧
        toSwap = (eligibleBlocks cfg entries).take n ∧
        toKeepRaw = (eligibleBlocks cfg entries).drop n) ∧
    (∀ (cfg : Config) (hasClient hasKey : Bool) (entries : List BranchEntry)
        (tokensBefore : Nat) (cache : Cache) (deferredMin : Nat),
      cfg.enabled = true → hasClient = true → hasKey = true →
      (eligibleBlocks cfg entries).length = 1 →
      0 < overflowOf cfg tokensBefore →
      ∃ d, compactionPlan cfg hasClient hasKey entries tokensBefore cache deferredMin
          = .cancel d) := by
  constructor
  · intro cfg hasClient hasKey entries tokensBefore cache deferredMin toSwap toKeepRaw fid h
    obtain ⟨hne0, hlt, hts, hkr⟩ := compactionPlan_plan_structure cfg hasClient hasKey
      entries tokensBefore cache deferredMin toSwap toKeepRaw fid h
    refine ⟨?_, planSwapN cfg entries tokensBefore cache, hne0, hlt, hts, hkr⟩
    rw [hkr]
    intro hnil
    rw [List.drop_eq_nil_iff] at hnil
    omega
  · intro cfg hasClient hasKey entries tokensBefore cache deferredMin hen hc hk hlen hov
    subst hc; subst hk
    have hsw : planSwapN cfg entries tokensBefore cache = 0 :=
      swapCount_of_length_one cache (overflowOf cfg tokensBefore) _ hlen
    unfold compactionPlan
    split_ifs with h1 h2 h3 h4 h5 h6 h7 h8 <;>
      first
        | exact ⟨_, rfl⟩
        | exact absurd hen (by simpa using h1)
        | exact absurd h3 (by simp)
        | exact absurd hsw h7
        | exact absurd hov (by omega)

/-- C3, witness for the plan-path conjunct. -/
theorem c3_most_recent_block_stays_raw_witness :
    (eligibleBlocks cfgPlanEx exEntries3).drop 1 ≠ [] ∧
    (∃ n, n ≠ 0 ∧ n < (eligibleBlocks cfgPlanEx exEntries3).length ∧
      (eligibleBlocks cfgPlanEx exEntries3).take 1
        = (eligibleBlocks cfgPlanEx exEntries3).take n ∧
      (eligibleBlocks cfgPlanEx exEntries3).drop 1
        = (eligibleBlocks cfgPlanEx exEntries3).drop n) :=
  c3_most_recent_block_stays_raw.1 cfgPlanEx true true exEntries3 100 ([] : Cache) 0
    ((eligibleBlocks cfgPlanEx exEntries3).take 1)
    ((eligibleBlocks cfgPlanEx exEntries3).drop 1) "e1" (by decide)

/-- C10: sub-threshold blocks are excluded from the swap-eligible list
before planning, and on a successful round they are in neither the swapped
prefix (whose cached/computed compressed texts form the replacement
payload) nor the kept-raw suffix (whose first entry is the resume marker);
a sub-threshold block whose entries precede the marker therefore
contributes to neither side of the rebuilt context. -/
theorem c10_subthreshold_blocks_absent
    (cfg : Config) (hasClient hasKey : Bool) (entries : List BranchEntry)
    (tokensBefore : Nat) (cache : Cache) (deferredMin : Nat)
    (toSwap toKeepRaw : List EBlock) (fid : String)
    (h : compactionPlan cfg hasClient hasKey entries tokensBefore cache deferredMin
        = .plan toSwap toKeepRaw fid) :
    toSwap ++ toKeepRaw = eligibleBlocks cfg entries ∧
    eligibleBlocks cfg entries
      = (allBlocksOf cfg entries).filter (fun b => b.tokens ≥ cfgMinSwapTokens cfg) ∧
    ∀ b ∈ allBlocksOf cfg entries, b.tokens < cfgMinSwapTokens cfg →
      b ∉ toSwap ∧ b ∉ toKeepRaw := by
  obtain ⟨hne0, hlt, hts, hkr⟩ := compactionPlan_plan_structure cfg hasClient hasKey
    entries tokensBefore cache deferredMin toSwap toKeepRaw fid h
  refine ⟨by rw [hts, hkr]; exact List.take_append_drop _ _, rfl, ?_⟩
  intro b _hb htiny
  constructor
  · intro hmem
    rw [hts] at hmem
    have hmem2 : b ∈ eligibleBlocks cfg entries := List.mem_of_mem_take hmem
    have := (List.mem_filter.mp hmem2).2
    simp only [decide_eq_true_eq] at this
    omega
  · intro hmem
    rw [hkr] at hmem
    have hmem2 : b ∈ eligibleBlocks cfg entries := List.mem_of_mem_drop hmem
    have := (List.mem_filter.mp hmem2).2
    simp only [decide_eq_true_eq] at this
    omega

/-- C10, witness. -/
theorem c10_subthreshold_blocks_absent_witness :
    ((eligibleBlocks cfgPlanEx exEntries3).take 1
        ++ (eligibleBlocks cfgPlanEx exEntries3).drop 1
      = eligibleBlocks cfgPlanEx exEntries3) ∧
    (eligibleBlocks cfgPlanEx exEntries3
      = (allBlocksOf cfgPlanEx exEntries3).filter
          (fun b => b.tokens ≥ cfgMinSwapTokens cfgPlanEx)) ∧
    ∀ b ∈ allBlocksOf cfgPlanEx exEntries3, b.tokens < cfgMinSwapTokens cfgPlanEx →
      b ∉ (eligibleBlocks cfgPlanEx exEntries3).take 1 ∧
      b ∉ (eligibleBlocks cfgPlanEx exEntries3).drop 1 :=
  c10_subthreshold_blocks_absent cfgPlanEx true true exEntries3 100 ([] : Cache) 0
    ((eligibleBlocks cfgPlanEx exEntries3).take 1)
    ((eligibleBlocks cfgPlanEx exEntries3).drop 1) "e1" (by decide)

/-! ## C8 — cache entries never exceed their input -/

/-- C8: a cache entry produced by `compressSingleBlock` stores the
original text whenever the input is below the minimum-compress threshold
or the provider's output is not meaningfully smaller (compressed token
count at or above the 0.95 shrink threshold of the raw count), and in
every case its compressed token count is at most its raw token count;
likewise the as-is entry `queueBlock` stores for a below-threshold block
equals the block's text. -/
theorem c8_no_op_guard_and_shrink :
    (∀ (cfg : Config) (hasClient hasKey : Bool) (outcome : ProviderOutcome)
        (raw : String) (entry : CacheEntry),
      compressSingleBlock cfg hasClient hasKey outcome raw = some entry →
      (raw.length < cfg.minCompressChars → entry.compressed = raw) ∧
      (∀ c, outcome = .ok c → 20 * estimateTokens c ≥ 19 * estimateTokens raw →
        entry.compressed = raw) ∧
      entry.tokensCompressed ≤ entry.tokensRaw ∧
      entry.tokensRaw = estimateTokens raw) ∧
    (∀ (cfg : Config) (b : MBlock) (st : BgState),
      cfg.enabled = true →
      cacheGet st.cache b.hash = none →
      b.text.length < cfg.minCompressChars →
      cacheGet (queueBlock cfg true true b st).cache b.hash
        = some ⟨b.text, b.tokens, b.tokens⟩) := by
  constructor
  · intro cfg hasClient hasKey outcome raw entry h
    unfold compressSingleBlock at h
    split_ifs at h with hcap hlen
    · injection h with he
      subst he
      refine ⟨fun _ => rfl, fun c _ _ => rfl, le_refl _, rfl⟩
    · cases outcome with
      | error => cases h
      | ok c =>
        simp only at h
        split_ifs at h with hshrink
        · injection h with he
          subst he
          exact ⟨fun hl => absurd hl hlen, fun c' _ _ => rfl, le_refl _, rfl⟩
        · injection h with he
          subst he
          refine ⟨fun hl => absurd hl hlen, ?_,
            by show estimateTokens c ≤ estimateTokens raw; omega, rfl⟩
          intro c' hc' hge
          injection hc' with hcc
          subst hcc
          exact absurd hge hshrink
  · intro cfg b st hen hmiss hlen
    unfold queueBlock
    rw [if_neg (by simp [hen]), hmiss]
    simp only [Option.isSome_none, Bool.false_eq_true, if_false, if_pos hlen]
    exact cacheGet_set_self st.cache b.hash _

/-- C8, witness: a short text below the default threshold is cached
as-is. -/
theorem c8_no_op_guard_and_shrink_witness :
    (("hi" : String).length < ({} : Config).minCompressChars →
      (⟨"hi", 1, 1⟩ : CacheEntry).compressed = "hi") ∧
    (∀ c, ProviderOutcome.error = .ok c →
      20 * estimateTokens c ≥ 19 * estimateTokens "hi" →
      (⟨"hi", 1, 1⟩ : CacheEntry).compressed = "hi") ∧
    (⟨"hi", 1, 1⟩ : CacheEntry).tokensCompressed ≤ (⟨"hi", 1, 1⟩ : CacheEntry).tokensRaw ∧
    (⟨"hi", 1, 1⟩ : CacheEntry).tokensRaw = estimateTokens "hi" :=
  c8_no_op_guard_and_shrink.1 {} true true .error "hi" ⟨"hi", 1, 1⟩ (by decide)

/-! ## C4 (amended) — what the background path actually does -/

/-- C4, amended behaviour: with the engine enabled and a usable provider,
an already-cached block is skipped entirely; an uncached block below the
minimum-compress threshold is cached as-is and not archived; an uncached
block at or above the threshold is enqueued and the drained queue archives
its raw text verbatim, leaving the cache untouched — no compression call
is made and no cache entry is produced on this path. -/
theorem c4_background_archives_without_compressing
    (cfg : Config) (b : MBlock) (st : BgState) (hen : cfg.enabled = true) :
    ((cacheGet st.cache b.hash).isSome → queueBlock cfg true true b st = st) ∧
    (cacheGet st.cache b.hash = none → b.text.length < cfg.minCompressChars →
      queueBlock cfg true true b st
        = { st with cache := cacheSet st.cache b.hash ⟨b.text, b.tokens, b.tokens⟩ }) ∧
    (cacheGet st.cache b.hash = none → ¬b.text.length < cfg.minCompressChars →
      (queueBlock cfg true true b st).cache = st.cache ∧
      (queueBlock cfg true true b st).queue = [] ∧
      (queueBlock cfg true true b st).archive
        = (st.queue ++ [(b.text, b.hash)]).foldl
            (fun a it => archiveRawBlock a it.2 it.1) st.archive ∧
      (List.lookup b.hash (queueBlock cfg true true b st).archive).isSome) := by
  refine ⟨?_, ?_, ?_⟩
  · intro hsome
    unfold queueBlock
    rw [if_neg (by simp [hen]), if_pos hsome]
  · intro hmiss hlen
    unfold queueBlock
    rw [if_neg (by simp [hen]), hmiss]
    simp only [Option.isSome_none, Bool.false_eq_true, if_false, if_pos hlen]
  · intro hmiss hlen
    unfold queueBlock
    rw [if_neg (by simp [hen]), hmiss]
    simp only [Option.isSome_none, Bool.false_eq_true, if_false, if_neg hlen]
    unfold processQueue
    refine ⟨rfl, rfl, rfl, ?_⟩
    rw [List.foldl_append]
    exact archivePut_lookup_isSome _ _ _

/-- C4 (amended), witness: the uncached above-threshold case at
`cfgSmall`. -/
theorem c4_background_archives_without_compressing_witness :
    (queueBlock cfgSmall true true exBlockU emptyBg).cache = emptyBg.cache ∧
    (queueBlock cfgSmall true true exBlockU emptyBg).queue = [] ∧
    (queueBlock cfgSmall true true exBlockU emptyBg).archive
      = (emptyBg.queue ++ [(exBlockU.text, exBlockU.hash)]).foldl
          (fun a it => archiveRawBlock a it.2 it.1) emptyBg.archive ∧
    (List.lookup exBlockU.hash (queueBlock cfgSmall true true exBlockU emptyBg).archive).isSome :=
  (c4_background_archives_without_compressing cfgSmall exBlockU emptyBg rfl).2.2
    (by decide) (by decide)

/-! ## C6 (amended) — failed compressions fall back to raw and are cached -/

theorem resolveStep_snd (cfg : Config) (hasClient hasKey : Bool)
    (oracle : String → ProviderOutcome) (st : Cache × List (String × CacheEntry))
    (bo : EBlock × Option CacheEntry) :
    (resolveStep cfg hasClient hasKey oracle st bo).2
      = st.2 ++ [slotResolve cfg hasClient hasKey oracle bo] := by
  unfold resolveStep slotResolve
  cases bo.2 <;> rfl

theorem foldl_resolveStep_snd (cfg : Config) (hasClient hasKey : Bool)
    (oracle : String → ProviderOutcome) :
    ∀ (lookups : List (EBlock × Option CacheEntry)) (st : Cache × List (String × CacheEntry)),
      (lookups.foldl (resolveStep cfg hasClient hasKey oracle) st).2
        = st.2 ++ lookups.map (slotResolve cfg hasClient hasKey oracle) := by
  intro lookups
  induction lookups with
  | nil => intro st; simp
  | cons bo rest ih =>
    intro st
    rw [List.foldl_cons, ih, List.map_cons]
    rw [resolveStep_snd]
    simp

theorem foldl_resolveStep_cache_mono (cfg : Config) (hasClient hasKey : Bool)
    (oracle : String → ProviderOutcome) :
    ∀ (lookups : List (EBlock × Option CacheEntry))
      (st : Cache × List (String × CacheEntry)) (h : String),
      (cacheGet st.1 h).isSome →
      (cacheGet (lookups.foldl (resolveStep cfg hasClient hasKey oracle) st).1 h).isSome := by
  intro lookups
  induction lookups with
  | nil => intro st h hh; exact hh
  | cons bo rest ih =>
    intro st h hh
    rw [List.foldl_cons]
    apply ih
    unfold resolveStep
    cases bo.2 with
    | some e => exact hh
    | none => exact cacheGet_set_isSome _ _ _ _ hh

theorem foldl_resolveStep_cache_isSome (cfg : Config) (hasClient hasKey : Bool)
    (oracle : String → ProviderOutcome) :
    ∀ (lookups : List (EBlock × Option CacheEntry))
      (st : Cache × List (String × CacheEntry)) (b : EBlock),
      (b, (none : Option CacheEntry)) ∈ lookups →
      (cacheGet (lookups.foldl (resolveStep cfg hasClient hasKey oracle) st).1 b.hash).isSome := by
  intro lookups
  induction lookups with
  | nil => intro st b hb; cases hb
  | cons bo rest ih =>
    intro st b hb
    rw [List.foldl_cons]
    rcases List.mem_cons.mp hb with hb | hb
    · subst hb
      apply foldl_resolveStep_cache_mono
      unfold resolveStep
      simp only
      rw [cacheGet_set_self]
      rfl
    · exact ih _ b hb

/-- C6, amended behaviour: when an individual on-demand compression call
fails during a compaction round, the handler uses the Block's raw text as
its compressed form (slot entry `⟨text, tokens, tokens⟩`), stores that
fallback entry in the cache under the Block's hash (so the Block will not
be retried on the next request), and the round proceeds without raising:
the resolution is total and yields one slot per swapped block. -/
theorem c6_failed_block_raw_fallback_cached
    (cfg : Config) (oracle : String → ProviderOutcome) (toSwap : List EBlock)
    (cache : Cache) (archive : Archive) (i : Nat) (b : EBlock)
    (hb : toSwap.get? i = some b)
    (hmiss : cacheGet cache b.hash = none)
    (herr : oracle b.text = .error)
    (hlen : ¬b.text.length < cfg.minCompressChars) :
    (resolveSwap cfg true true oracle toSwap cache archive).slots.get? i
      = some (b.hash, ⟨b.text, b.tokens, b.tokens⟩) ∧
    (cacheGet (resolveSwap cfg true true oracle toSwap cache archive).cache b.hash).isSome ∧
    (resolveSwap cfg true true oracle toSwap cache archive).slots.length
      = toSwap.length := by
  have hslots : (resolveSwap cfg true true oracle toSwap cache archive).slots
      = (toSwap.map (fun blk => (blk, cacheGet cache blk.hash))).map
          (slotResolve cfg true true oracle) := by
    unfold resolveSwap
    simpa using foldl_resolveStep_snd cfg true true oracle
      (toSwap.map (fun blk => (blk, cacheGet cache blk.hash))) (cache, [])
  have hfall : slotResolve cfg true true oracle (b, cacheGet cache b.hash)
      = (b.hash, ⟨b.text, b.tokens, b.tokens⟩) := by
    rw [hmiss]
    unfold slotResolve
    simp only
    unfold compressSingleBlock
    rw [if_neg (by simp), if_neg hlen, herr]
    rfl
  refine ⟨?_, ?_, ?_⟩
  · rw [hslots, List.get?_map, List.get?_map, hb]
    simp [hfall]
  · have hmem : (b, (none : Option CacheEntry))
        ∈ toSwap.map (fun blk => (blk, cacheGet cache blk.hash)) := by
      have := List.get?_mem hb
      have : (b, cacheGet cache b.hash)
          ∈ toSwap.map (fun blk => (blk, cacheGet cache blk.hash)) :=
        List.mem_map_of_mem _ this
      rwa [hmiss] at this
    unfold resolveSwap
    exact foldl_resolveStep_cache_isSome cfg true true oracle _ _ b hmem
  · rw [hslots]
    simp

/-- C6 (amended), witness. -/
theorem c6_failed_block_raw_fallback_cached_witness :
    (resolveSwap cfgSmall true true (fun _ => .error) [exEBlockU]
        ([] : Cache) ([] : Archive)).slots.get? 0
      = some (exEBlockU.hash, ⟨exEBlockU.text, exEBlockU.tokens, exEBlockU.tokens⟩) ∧
    (cacheGet (resolveSwap cfgSmall true true (fun _ => .error) [exEBlockU]
        ([] : Cache) ([] : Archive)).cache exEBlockU.hash).isSome ∧
    (resolveSwap cfgSmall true true (fun _ => .error) [exEBlockU]
        ([] : Cache) ([] : Archive)).slots.length = [exEBlockU].length :=
  c6_failed_block_raw_fallback_cached cfgSmall (fun _ => .error) [exEBlockU]
    ([] : Cache) ([] : Archive) 0 exEBlockU (by decide) (by decide) rfl (by decide)

/-! ## C7 — FIFO eviction -/

theorem historyTotal_cons (e : HistEntry) (t : List HistEntry) :
    historyTotal (e :: t) = historyTotal t + (e.tokensCompressed + 15) := by
  simp [historyTotal]
  omega

theorem foldl_archiveEvicted_preserves (sid : String) :
    ∀ (l : List HistEntry) (a : Archive) (k : String),
      (List.lookup k a).isSome →
      (List.lookup k (l.foldl (archiveEvictedBlock sid) a)).isSome := by
  intro l
  induction l with
  | nil => intro a k h; exact h
  | cons e t ih =>
    intro a k h
    rw [List.foldl_cons]
    exact ih _ k (archivePut_preserves_isSome _ _ _ _ h)

theorem foldl_archiveEvicted_lookup (sid : String) :
    ∀ (l : List HistEntry) (a : Archive), ∀ e ∈ l,
      (List.lookup (evictName e) (l.foldl (archiveEvictedBlock sid) a)).isSome := by
  intro l
  induction l with
  | nil => intro a e he; cases he
  | cons x t ih =>
    intro a e he
    rw [List.foldl_cons]
    rcases List.mem_cons.mp he with he | he
    · subst he
      exact foldl_archiveEvicted_preserves sid t _ _ (archivePut_lookup_isSome _ _ _)
    · exact ih _ e he

theorem evictLoop_spec (E : Nat) (sid : String) :
    ∀ (hist : List HistEntry) (arch : Archive),
      (historyTotal (evictLoop E sid hist (historyTotal hist) arch).1 ≤ E ∨
        (evictLoop E sid hist (historyTotal hist) arch).1 = []) ∧
      ∃ k, (evictLoop E sid hist (historyTotal hist) arch).1 = hist.drop k ∧
        (evictLoop E sid hist (historyTotal hist) arch).2
          = (hist.take k).foldl (archiveEvictedBlock sid) arch := by
  intro hist
  induction hist with
  | nil => intro arch; exact ⟨Or.inr rfl, 0, rfl, rfl⟩
  | cons oldest rest ih =>
    intro arch
    by_cases hgt : historyTotal (oldest :: rest) > E
    · have hsub : historyTotal (oldest :: rest) - (oldest.tokensCompressed + 15)
          = historyTotal rest := by
        rw [historyTotal_cons]; omega
      have hstep : evictLoop E sid (oldest :: rest) (historyTotal (oldest :: rest)) arch
          = evictLoop E sid rest (historyTotal rest)
              (archiveEvictedBlock sid arch oldest) := by
        rw [evictLoop, if_pos hgt, hsub]
      rw [hstep]
      obtain ⟨h1, k, h2, h3⟩ := ih (archiveEvictedBlock sid arch oldest)
      exact ⟨h1, k + 1, by simpa using h2, by simpa using h3⟩
    · have hstep : evictLoop E sid (oldest :: rest) (historyTotal (oldest :: rest)) arch
          = (oldest :: rest, arch) := by
        rw [evictLoop, if_neg hgt]
      rw [hstep]
      exact ⟨Or.inl (show historyTotal (oldest :: rest) ≤ E by omega), 0, rfl, rfl⟩

/-- C7: after the eviction step, the tracked total (base overhead plus
compressed sizes plus fixed per-entry overhead) is at most the eviction
threshold, or the history is empty; the surviving history is a suffix of
the original (entries are removed strictly oldest-first, the removed ones
being exactly the `take k` prefix); every removed entry is archived under
its content- and date-derived name `rmem-<date>-<hash8>.md` before
removal; and that archival is idempotent. -/
theorem c7_fifo_eviction_monotone (E : Nat) (sid : String)
    (history hist' : List HistEntry) (arch arch' : Archive)
    (h : applyFifoEviction E sid history arch = (hist', arch')) :
    (historyTotal hist' ≤ E ∨ hist' = []) ∧
    (∃ k, hist' = history.drop k ∧
      arch' = (history.take k).foldl (archiveEvictedBlock sid) arch ∧
      ∀ e ∈ history.take k, (List.lookup (evictName e) arch').isSome) ∧
    (∀ (a : Archive) (e : HistEntry),
      archiveEvictedBlock sid (archiveEvictedBlock sid a e) e
        = archiveEvictedBlock sid a e) := by
  obtain ⟨h1, k, h2, h3⟩ := evictLoop_spec E sid history arch
  unfold applyFifoEviction at h
  rw [h] at h1 h2 h3
  simp only at h1 h2 h3
  refine ⟨h1, ⟨k, h2, h3, ?_⟩, ?_⟩
  · intro e he
    rw [h3]
    exact foldl_archiveEvicted_lookup sid _ arch e he
  · intro a e
    unfold archiveEvictedBlock
    exact archivePut_of_isSome _ _ _ (archivePut_lookup_isSome _ _ _)

/-- C7, witness: a single 30-token entry against threshold 10 is evicted
and archived; the history empties. -/
theorem c7_fifo_eviction_monotone_witness :
    (historyTotal ([] : List HistEntry) ≤ 10 ∨ ([] : List HistEntry) = []) ∧
    (∃ k, ([] : List HistEntry) = [exHist1].drop k ∧
      archiveEvictedBlock "s" ([] : Archive) exHist1
        = ([exHist1].take k).foldl (archiveEvictedBlock "s") ([] : Archive) ∧
      ∀ e ∈ [exHist1].take k,
        (List.lookup (evictName e) (archiveEvictedBlock "s" ([] : Archive) exHist1)).isSome) ∧
    (∀ (a : Archive) (e : HistEntry),
      archiveEvictedBlock "s" (archiveEvictedBlock "s" a e) e
        = archiveEvictedBlock "s" a e) :=
  c7_fifo_eviction_monotone 10 "s" [exHist1] [] ([] : Archive)
    (archiveEvictedBlock "s" ([] : Archive) exHist1) (by decide)

/-! ## C1 (amended) — the entries path never splits a tool pair -/

theorem takeWhile_append_of_all {α : Type} (p : α → Bool) :
    ∀ (xs ys : List α), (∀ x ∈ xs, p x = true) →
      (xs ++ ys).takeWhile p = xs ++ ys.takeWhile p := by
  intro xs
  induction xs with
  | nil => intro ys _; rfl
  | cons x t ih =>
    intro ys hall
    have hx : p x = true := hall x (List.mem_cons_self x t)
    simp only [List.cons_append, List.takeWhile_cons, hx, if_true]
    rw [ih ys (fun y hy => hall y (List.mem_cons_of_mem x hy))]

theorem dropWhile_append_of_all {α : Type} (p : α → Bool) :
    ∀ (xs ys : List α), (∀ x ∈ xs, p x = true) →
      (xs ++ ys).dropWhile p = ys.dropWhile p := by
  intro xs
  induction xs with
  | nil => intro ys _; rfl
  | cons x t ih =>
    intro ys hall
    have hx : p x = true := hall x (List.mem_cons_self x t)
    simp only [List.cons_append, List.dropWhile_cons, hx, if_true]
    exact ih ys (fun y hy => hall y (List.mem_cons_of_mem x hy))

theorem dropWhile_append_of_not_all {α : Type} (p : α → Bool) :
    ∀ (xs ys : List α), ¬(∀ x ∈ xs, p x = true) →
      (xs ++ ys).dropWhile p = xs.dropWhile p ++ ys := by
  intro xs
  induction xs with
  | nil => intro ys h; exact absurd (by intro x hx; cases hx) h
  | cons x t ih =>
    intro ys h
    by_cases hx : p x = true
    · have ht : ¬(∀ y ∈ t, p y = true) := by
        intro hall
        exact h (by
          intro y hy
          rcases List.mem_cons.mp hy with hy | hy
          · subst hy; exact hx
          · exact hall y hy)
      simp only [List.cons_append, List.dropWhile_cons, hx, if_true]
      exact ih ys ht
    · simp only [List.cons_append, List.dropWhile_cons, hx]
      simp [Bool.not_eq_true] at hx
      simp [hx]

theorem turnsGo_cur_prefix :
    ∀ (l cur : List IEntry), cur ≠ [] →
      ∃ T ∈ turnsGo l cur, ∃ tail, T = cur ++ tail := by
  intro l
  induction l with
  | nil =>
    intro cur hcur
    refine ⟨cur, ?_, [], by simp⟩
    simp [turnsGo, List.isEmpty_iff, hcur]
  | cons x rest ih =>
    intro cur hcur
    simp only [turnsGo]
    split_ifs with h1 h2
    · obtain ⟨T, hT, tail, htail⟩ := ih (cur ++ [x]) (by simp)
      exact ⟨T, hT, [x] ++ tail, by simp [htail]⟩
    · exact ⟨cur, List.mem_cons_self _ _, [], by simp⟩
    · obtain ⟨T, hT, tail, htail⟩ := ih (cur ++ [x]) (by simp)
      exact ⟨T, hT, [x] ++ tail, by simp [htail]⟩

theorem turnsGo_absorb_results :
    ∀ (S₂ : List IEntry) (Z cur : List IEntry), cur ≠ [] →
      (∀ r ∈ S₂, r.message.role ≠ "user") →
      ∃ T ∈ turnsGo (S₂ ++ Z) cur, ∃ tail, T = cur ++ S₂ ++ tail := by
  intro S₂
  induction S₂ with
  | nil =>
    intro Z cur hcur _
    obtain ⟨T, hT, tail, htail⟩ := turnsGo_cur_prefix Z cur hcur
    exact ⟨T, hT, tail, by simpa using htail⟩
  | cons r S₂' ih =>
    intro Z cur hcur hnu
    have hr : r.message.role ≠ "user" := hnu r (List.mem_cons_self _ _)
    have hstep : turnsGo ((r :: S₂') ++ Z) cur = turnsGo (S₂' ++ Z) (cur ++ [r]) := by
      simp only [List.cons_append, turnsGo]
      rw [if_neg (by simp [hr])]
      rfl
    rw [hstep]
    obtain ⟨T, hT, tail, htail⟩ := ih Z (cur ++ [r]) (by simp)
      (fun y hy => hnu y (List.mem_cons_of_mem r hy))
    exact ⟨T, hT, tail, by simp [htail]⟩

theorem turnsGo_segment :
    ∀ (A : List IEntry) (cur : List IEntry) (u : IEntry) (S₂ Z : List IEntry),
      (∀ r ∈ S₂, r.message.role ≠ "user") →
      ∃ T ∈ turnsGo (A ++ u :: (S₂ ++ Z)) cur,
        ∃ A' tail, T = A' ++ u :: (S₂ ++ tail) := by
  intro A
  induction A with
  | nil =>
    intro cur u S₂ Z hnu
    have key : ∀ cur' : List IEntry,
        (∃ T ∈ turnsGo (S₂ ++ Z) (cur' ++ [u]), ∃ A' tail, T = A' ++ u :: (S₂ ++ tail)) := by
      intro cur'
      obtain ⟨T, hT, tail, htail⟩ := turnsGo_absorb_results S₂ Z (cur' ++ [u]) (by simp) hnu
      exact ⟨T, hT, cur', tail, by simp [htail]⟩
    simp only [List.nil_append, turnsGo]
    split_ifs with h1 h2
    · exact key cur
    · obtain ⟨T, hT, A', tail, h⟩ := by
        simpa using key ([] : List IEntry)
      exact ⟨T, List.mem_cons_of_mem _ hT, A', tail, h⟩
    · exact key cur
  | cons a A₂ ih =>
    intro cur u S₂ Z hnu
    simp only [List.cons_append, turnsGo]
    split_ifs with h1 h2
    · exact ih (cur ++ [a]) u S₂ Z hnu
    · obtain ⟨T, hT, A', tail, h⟩ := ih [a] u S₂ Z hnu
      exact ⟨T, List.mem_cons_of_mem _ hT, A', tail, h⟩
    · exact ih (cur ++ [a]) u S₂ Z hnu

theorem finalizeEntryBlock_entries (es : List IEntry) :
    (finalizeEntryBlock es).entries = es := rfl

theorem restAfter_length_le (x : IEntry) (rest : List IEntry) :
    (restAfter x rest).length ≤ rest.length := by
  unfold restAfter
  split
  · exact (List.dropWhile_sublist _).length_le
  · exact le_refl _

theorem mem_flushAcc (acc : List IEntry) (h : acc ≠ []) :
    finalizeEntryBlock acc ∈ flushAcc acc := by
  unfold flushAcc
  rw [if_neg (by simpa [List.isEmpty_iff] using h)]
  exact List.mem_singleton.mpr rfl

theorem packLoopGo_acc_in_block (maxT maxC : Nat) :
    ∀ (fuel : Nat) (l acc : List IEntry) (accTok : Nat), acc ≠ [] →
      ∃ B ∈ packLoopGo maxT maxC fuel l acc accTok, ∃ tail, B.entries = acc ++ tail := by
  intro fuel
  induction fuel with
  | zero =>
    intro l acc accTok hacc
    exact ⟨finalizeEntryBlock acc, mem_flushAcc acc hacc, [],
      by simp [finalizeEntryBlock_entries]⟩
  | succ fuel ih =>
    intro l acc accTok hacc
    cases l with
    | nil =>
      exact ⟨finalizeEntryBlock acc, mem_flushAcc acc hacc, [],
        by simp [finalizeEntryBlock_entries]⟩
    | cons x rest =>
      simp only [packLoopGo]
      split_ifs with h1 h2 h3
      · exact ⟨finalizeEntryBlock acc,
          List.mem_append_left _ (mem_flushAcc acc hacc), [],
          by simp [finalizeEntryBlock_entries]⟩
      · exact ⟨finalizeEntryBlock acc,
          List.mem_append_left _ (List.mem_append_left _ (mem_flushAcc acc hacc)), [],
          by simp [finalizeEntryBlock_entries]⟩
      · exact ⟨finalizeEntryBlock acc, List.mem_cons_self _ _, [],
          by simp [finalizeEntryBlock_entries]⟩
      · obtain ⟨B, hB, tail, htail⟩ :=
          ih (restAfter x rest) (acc ++ pairedOf x rest) (accTok + pairedTokensOf x rest)
            (by simp [pairedOf])
        exact ⟨B, hB, pairedOf x rest ++ tail, by simp [htail]⟩

theorem takeWhile_toolResult_cons (u : IEntry) (l : List IEntry)
    (h : hasToolResult u.message = true) :
    List.takeWhile (fun x => hasToolResult x.message) (u :: l)
      = u :: List.takeWhile (fun x => hasToolResult x.message) l := by
  simp [List.takeWhile_cons, h]

theorem packLoopGo_pair_in_block (maxT maxC : Nat) :
    ∀ (fuel : Nat) (l acc : List IEntry) (accTok : Nat)
      (A R Z : List IEntry) (u e : IEntry),
      l.length ≤ fuel →
      l = A ++ u :: (R ++ e :: Z) →
      hasToolUse u.message = true →
      (∀ r ∈ R ++ [e], hasToolResult r.message = true) →
      ∃ B ∈ packLoopGo maxT maxC fuel l acc accTok,
        u ∈ B.entries ∧ e ∈ B.entries := by
  intro fuel
  induction fuel with
  | zero =>
    intro l acc accTok A R Z u e hlen hl hu hres
    subst hl
    simp at hlen
  | succ fuel ih =>
    intro l acc accTok A R Z u e hlen hl hu hres
    cases l with
    | nil => exact absurd hl.symm (by simp)
    | cons x rest =>
      cases A with
      | nil =>
        rw [List.nil_append] at hl
        injection hl with hx hrest
        subst hx; subst hrest
        -- the unit at the invocation absorbs all of R ++ [e]
        have habs : absorbedOf x (R ++ e :: Z)
            = (R ++ [e]) ++ (List.takeWhile (fun r => hasToolResult r.message) Z) := by
          unfold absorbedOf
          rw [if_pos hu]
          have hsplit : R ++ e :: Z = (R ++ [e]) ++ Z := by simp
          rw [hsplit, takeWhile_append_of_all _ (R ++ [e]) Z hres]
        have hup : x ∈ pairedOf x (R ++ e :: Z) := List.mem_cons_self _ _
        have hep : e ∈ pairedOf x (R ++ e :: Z) := by
          unfold pairedOf
          rw [habs]
          exact List.mem_cons_of_mem _ (List.mem_append_left _
            (List.mem_append_right _ (List.mem_singleton.mpr rfl)))
        have hlen2 : (pairedOf x (R ++ e :: Z)).length > 1 := by
          unfold pairedOf
          rw [habs]
          simp
        simp only [packLoopGo]
        split_ifs with h1 h2 h3
        · refine ⟨finalizeEntryBlock (pairedOf x (R ++ e :: Z)), ?_, hup, hep⟩
          exact List.mem_append_right _ (List.mem_cons_self _ _)
        · exfalso
          simp only [Bool.and_eq_true, decide_eq_true_eq, not_and] at h1
          simp only [decide_eq_true_eq] at h2
          exact absurd hlen2 (by simpa using h1 h2)
        · obtain ⟨B, hB, tail, htail⟩ := packLoopGo_acc_in_block maxT maxC fuel
            (restAfter x (R ++ e :: Z)) (pairedOf x (R ++ e :: Z))
            (pairedTokensOf x (R ++ e :: Z)) (by simp [pairedOf])
          refine ⟨B, List.mem_cons_of_mem _ hB, ?_, ?_⟩
          · rw [htail]; exact List.mem_append_left _ hup
          · rw [htail]; exact List.mem_append_left _ hep
        · obtain ⟨B, hB, tail, htail⟩ := packLoopGo_acc_in_block maxT maxC fuel
            (restAfter x (R ++ e :: Z)) (acc ++ pairedOf x (R ++ e :: Z))
            (accTok + pairedTokensOf x (R ++ e :: Z)) (by simp [pairedOf])
          refine ⟨B, hB, ?_, ?_⟩
          · rw [htail]
            exact List.mem_append_left _ (List.mem_append_right _ hup)
          · rw [htail]
            exact List.mem_append_left _ (List.mem_append_right _ hep)
      | cons a A₂ =>
        rw [List.cons_append] at hl
        injection hl with hx hrest
        subst hx
        have hlen' : rest.length ≤ fuel := by
          simpa using Nat.le_of_succ_le_succ (by simpa using hlen)
        by_cases hta : hasToolUse x.message = true
        · by_cases hall : (∀ y ∈ A₂, hasToolResult y.message = true)
              ∧ hasToolResult u.message = true
          · -- the unit at the head swallows A₂, the invocation and its results
            obtain ⟨hallA, hru⟩ := hall
            have habs : absorbedOf x rest
                = A₂ ++ u :: ((R ++ [e]) ++
                    List.takeWhile (fun r => hasToolResult r.message) Z) := by
              unfold absorbedOf
              rw [if_pos hta, hrest]
              rw [takeWhile_append_of_all _ A₂ _ hallA]
              rw [takeWhile_toolResult_cons u _ hru]
              have hsplit : R ++ e :: Z = (R ++ [e]) ++ Z := by simp
              rw [hsplit, takeWhile_append_of_all _ (R ++ [e]) Z hres]
            have hup : u ∈ pairedOf x rest := by
              unfold pairedOf
              rw [habs]
              exact List.mem_cons_of_mem _ (List.mem_append_right _
                (List.mem_cons_self _ _))
            have hep : e ∈ pairedOf x rest := by
              unfold pairedOf
              rw [habs]
              refine List.mem_cons_of_mem _ (List.mem_append_right _ ?_)
              exact List.mem_cons_of_mem _ (List.mem_append_left _
                (List.mem_append_right _ (List.mem_singleton.mpr rfl)))
            have hlen2 : (pairedOf x rest).length > 1 := by
              unfold pairedOf
              rw [habs]
              simp
            simp only [packLoopGo]
            split_ifs with h1 h2 h3
            · refine ⟨finalizeEntryBlock (pairedOf x rest), ?_, hup, hep⟩
              exact List.mem_append_right _ (List.mem_cons_self _ _)
            · exfalso
              simp only [Bool.and_eq_true, decide_eq_true_eq, not_and] at h1
              simp only [decide_eq_true_eq] at h2
              exact absurd hlen2 (by simpa using h1 h2)
            · obtain ⟨B, hB, tail, htail⟩ := packLoopGo_acc_in_block maxT maxC fuel
                (restAfter x rest) (pairedOf x rest) (pairedTokensOf x rest)
                (by simp [pairedOf])
              refine ⟨B, List.mem_cons_of_mem _ hB, ?_, ?_⟩
              · rw [htail]; exact List.mem_append_left _ hup
              · rw [htail]; exact List.mem_append_left _ hep
            · obtain ⟨B, hB, tail, htail⟩ := packLoopGo_acc_in_block maxT maxC fuel
                (restAfter x rest) (acc ++ pairedOf x rest)
                (accTok + pairedTokensOf x rest) (by simp [pairedOf])
              refine ⟨B, hB, ?_, ?_⟩
              · rw [htail]
                exact List.mem_append_left _ (List.mem_append_right _ hup)
              · rw [htail]
                exact List.mem_append_left _ (List.mem_append_right _ hep)
          · -- the drop stops before the invocation: the segment survives
            have hform : ∃ A₃, restAfter x rest = A₃ ++ u :: (R ++ e :: Z) := by
              unfold restAfter
              rw [if_pos hta, hrest]
              by_cases hallA : ∀ y ∈ A₂, hasToolResult y.message = true
              · have hru : ¬hasToolResult u.message = true := fun hru =>
                  hall ⟨hallA, hru⟩
                refine ⟨[], ?_⟩
                rw [dropWhile_append_of_all _ A₂ _ hallA]
                rw [List.dropWhile_cons_of_neg (by simpa using hru)]
                simp
              · refine ⟨List.dropWhile (fun r => hasToolResult r.message) A₂, ?_⟩
                rw [dropWhile_append_of_not_all _ A₂ _ hallA]
            obtain ⟨A₃, hA₃⟩ := hform
            have hlen'' : (restAfter x rest).length ≤ fuel :=
              le_trans (restAfter_length_le x rest) hlen'
            have hrec := fun (acc' : List IEntry) (accTok' : Nat) =>
              ih (restAfter x rest) acc' accTok' A₃ R Z u e hlen'' hA₃ hu hres
            simp only [packLoopGo]
            split_ifs with h1 h2 h3
            · obtain ⟨B, hB, hBu, hBe⟩ := hrec [] 0
              exact ⟨B, List.mem_append_right _ (List.mem_cons_of_mem _ hB), hBu, hBe⟩
            · obtain ⟨B, hB, hBu, hBe⟩ := hrec [] 0
              exact ⟨B, List.mem_append_right _ hB, hBu, hBe⟩
            · obtain ⟨B, hB, hBu, hBe⟩ := hrec (pairedOf x rest) (pairedTokensOf x rest)
              exact ⟨B, List.mem_cons_of_mem _ hB, hBu, hBe⟩
            · obtain ⟨B, hB, hBu, hBe⟩ := hrec (acc ++ pairedOf x rest)
                (accTok + pairedTokensOf x rest)
              exact ⟨B, hB, hBu, hBe⟩
        · -- the head has no tool use: singleton unit, the loop moves on
          have hra : restAfter x rest = rest := by
            unfold restAfter
            rw [if_neg hta]
          have hrec := fun (acc' : List IEntry) (accTok' : Nat) =>
            ih rest acc' accTok' A₂ R Z u e hlen' hrest hu hres
          simp only [packLoopGo]
          rw [hra]
          split_ifs with h1 h2 h3
          · obtain ⟨B, hB, hBu, hBe⟩ := hrec [] 0
            exact ⟨B, List.mem_append_right _ (List.mem_cons_of_mem _ hB), hBu, hBe⟩
          · obtain ⟨B, hB, hBu, hBe⟩ := hrec [] 0
            exact ⟨B, List.mem_append_right _ hB, hBu, hBe⟩
          · obtain ⟨B, hB, hBu, hBe⟩ := hrec (pairedOf x rest) (pairedTokensOf x rest)
            exact ⟨B, List.mem_cons_of_mem _ hB, hBu, hBe⟩
          · obtain ⟨B, hB, hBu, hBe⟩ := hrec (acc ++ pairedOf x rest)
              (accTok + pairedTokensOf x rest)
            exact ⟨B, hB, hBu, hBe⟩

/-- C1, amended: on the compaction entry path (`groupEntriesIntoBlocks`),
for every span in the host's normalized internal format (no user-role
message itself carries a tool-result payload), whenever a tool-invocation
entry `u` is followed by a run of tool-result entries containing `r`, some
single emitted Block contains both the invocation and that result — no
Block boundary separates them, whatever the block token budget. (The
turn-completion path has no such guarantee; see the counterexample.) -/
theorem c1_tool_pairing_entries_path
    (cfg : Config) (entries : List BranchEntry) (startIndex : Nat)
    (A R Z : List IEntry) (u e : IEntry)
    (hnorm : normalizedSeq (entrySeq entries startIndex) = true)
    (hseq : entrySeq entries startIndex = A ++ u :: (R ++ e :: Z))
    (hu : hasToolUse u.message = true)
    (hres : ∀ r ∈ R ++ [e], hasToolResult r.message = true) :
    ∃ B ∈ groupEntriesIntoBlocks cfg entries startIndex,
      u ∈ B.entries ∧ e ∈ B.entries := by
  have hnu : ∀ r ∈ R ++ [e], r.message.role ≠ "user" := by
    intro r hr hruser
    have hmem : r ∈ entrySeq entries startIndex := by
      rw [hseq]
      rcases List.mem_append.mp hr with h | h
      · exact List.mem_append_right _
          (List.mem_cons_of_mem _ (List.mem_append_left _ h))
      · have he : r = e := List.mem_singleton.mp h
        subst he
        exact List.mem_append_right _ (List.mem_cons_of_mem _
          (List.mem_append_right _ (List.mem_cons_self _ _)))
    have hn := (List.all_eq_true.mp hnorm) r hmem
    rw [hruser] at hn
    simp at hn
    exact absurd (hres r hr) (by simp [hn])
  have hseq' : entrySeq entries startIndex = A ++ u :: ((R ++ [e]) ++ Z) := by
    simpa using hseq
  obtain ⟨T, hT, A', tail, hTeq⟩ := turnsGo_segment A [] u (R ++ [e]) Z hnu
  rw [← hseq'] at hT
  have hTshape : T = A' ++ u :: (R ++ e :: tail) := by simpa using hTeq
  have hblock : ∃ B ∈ blocksOfTurn cfg T, u ∈ B.entries ∧ e ∈ B.entries := by
    simp only [blocksOfTurn]
    split_ifs with hsmall
    · refine ⟨finalizeEntryBlock T, List.mem_singleton.mpr rfl, ?_, ?_⟩
      · rw [finalizeEntryBlock_entries, hTshape]
        exact List.mem_append_right _ (List.mem_cons_self _ _)
      · rw [finalizeEntryBlock_entries, hTshape]
        exact List.mem_append_right _ (List.mem_cons_of_mem _
          (List.mem_append_right _ (List.mem_cons_self _ _)))
    · exact packLoopGo_pair_in_block _ _ T.length T [] 0 A' R tail u e
        (le_refl _) hTshape hu hres
  obtain ⟨B, hBmem, hBu, hBe⟩ := hblock
  refine ⟨B, ?_, hBu, hBe⟩
  unfold groupEntriesIntoBlocks
  exact List.mem_flatMap.mpr ⟨T, hT, hBmem⟩

/-- C1 (amended), witness: the normalized example span [user, assistant
tool invocation, tool result] at the default block budget. -/
theorem c1_tool_pairing_entries_path_witness :
    ∃ B ∈ groupEntriesIntoBlocks {} exEntries3 0,
      (⟨1, "e1", exToolCallMsg⟩ : IEntry) ∈ B.entries ∧
      (⟨2, "e2", exToolResultMsg⟩ : IEntry) ∈ B.entries :=
  c1_tool_pairing_entries_path {} exEntries3 0 [⟨0, "e0", exUserMsg⟩] [] []
    ⟨1, "e1", exToolCallMsg⟩ ⟨2, "e2", exToolResultMsg⟩
    (by decide) (by decide) (by decide) (by decide)

/-! ## C5 (amended) — block texts reproduce the span -/

theorem joinSep_cons_ne (sep a : String) (l : List String) (h : l ≠ []) :
    joinSep sep (a :: l) = a ++ sep ++ joinSep sep l := by
  cases l with
  | nil => exact absurd rfl h
  | cons b t => rfl

theorem joinSep_append_ne (sep : String) :
    ∀ (xs ys : List String), xs ≠ [] → ys ≠ [] →
      joinSep sep (xs ++ ys) = joinSep sep xs ++ sep ++ joinSep sep ys := by
  intro xs
  induction xs with
  | nil => intro ys h _; exact absurd rfl h
  | cons x t ih =>
    intro ys _ hy
    cases t with
    | nil =>
      rw [List.singleton_append, joinSep_cons_ne sep x ys hy]
      rfl
    | cons b t' =>
      rw [List.cons_append, joinSep_cons_ne sep x ((b :: t') ++ ys) (by simp),
        joinSep_cons_ne sep x (b :: t') (by simp), ih ys (by simp) hy]
      simp [String.append_assoc]

theorem joinSep_flatten (sep : String) :
    ∀ (parts : List (List String)), (∀ p ∈ parts, p ≠ []) →
      joinSep sep (parts.map (joinSep sep)) = joinSep sep parts.flatten := by
  intro parts
  induction parts with
  | nil => intro _; rfl
  | cons p rest ih =>
    intro hne
    have hp : p ≠ [] := hne p (List.mem_cons_self _ _)
    cases rest with
    | nil => simp [joinSep]
    | cons q r' =>
      have hq : q ≠ [] := hne q (List.mem_cons_of_mem _ (List.mem_cons_self _ _))
      have hrest : ((q :: r') : List (List String)).flatten ≠ [] := by
        simp only [List.flatten_cons]
        intro hcontra
        exact hq (List.append_eq_nil.mp hcontra).1
      rw [List.map_cons, joinSep_cons_ne sep _ _ (by simp),
        ih (fun z hz => hne z (List.mem_cons_of_mem _ hz))]
      conv_rhs => rw [List.flatten_cons]
      rw [joinSep_append_ne sep p ((q :: r') : List (List String)).flatten hp hrest]

theorem turnsGo_flatten :
    ∀ (l cur : List IEntry), (turnsGo l cur).flatten = cur ++ l := by
  intro l
  induction l with
  | nil =>
    intro cur
    by_cases hcur : cur = []
    · subst hcur; rfl
    · simp only [turnsGo]
      rw [if_neg (by simpa [List.isEmpty_iff] using hcur)]
      simp
  | cons x rest ih =>
    intro cur
    simp only [turnsGo]
    split_ifs with h1 h2
    · rw [ih (cur ++ [x])]; simp
    · simp only [List.flatten_cons]
      rw [ih [x]]
      simp
    · rw [ih (cur ++ [x])]; simp

theorem turnsGo_ne_nil :
    ∀ (l cur : List IEntry), cur ≠ [] → ∀ T ∈ turnsGo l cur, T ≠ [] := by
  intro l
  induction l with
  | nil =>
    intro cur hcur T hT
    simp only [turnsGo] at hT
    rw [if_neg (by simpa [List.isEmpty_iff] using hcur)] at hT
    rw [List.mem_singleton.mp hT]
    exact hcur
  | cons x rest ih =>
    intro cur hcur T hT
    simp only [turnsGo] at hT
    split_ifs at hT with h1 h2
    · exact ih (cur ++ [x]) (by simp) T hT
    · rcases List.mem_cons.mp hT with hT | hT
      · rw [hT]; exact hcur
      · exact ih [x] (by simp) T hT
    · exact ih (cur ++ [x]) (by simp) T hT

theorem turnsGo_nil_start_ne_nil :
    ∀ (l : List IEntry), ∀ T ∈ turnsGo l [], T ≠ [] := by
  intro l T hT
  cases l with
  | nil => simp [turnsGo] at hT
  | cons x rest =>
    have hstep : turnsGo (x :: rest) [] = turnsGo rest [x] := by
      simp only [turnsGo]
      rw [if_neg (by simp)]
      rfl
    rw [hstep] at hT
    exact turnsGo_ne_nil rest [x] (by simp) T hT

theorem pairedOf_append_restAfter (e : IEntry) (rest : List IEntry) :
    pairedOf e rest ++ restAfter e rest = e :: rest := by
  unfold pairedOf absorbedOf restAfter
  by_cases h : hasToolUse e.message = true
  · simp [h, List.takeWhile_append_dropWhile]
  · simp [h]

theorem restAfter_subset (e x : IEntry) (rest : List IEntry)
    (hx : x ∈ restAfter e rest) : x ∈ rest := by
  unfold restAfter at hx
  split at hx
  · exact (List.dropWhile_sublist _).subset hx
  · exact hx

theorem mem_flushAcc_elim (acc : List IEntry) (B : EBlock) (h : B ∈ flushAcc acc) :
    acc ≠ [] ∧ B = finalizeEntryBlock acc := by
  unfold flushAcc at h
  cases acc with
  | nil => simp at h
  | cons a t =>
    rw [if_neg (by simp)] at h
    exact ⟨by simp, List.mem_singleton.mp h⟩

theorem flushAcc_entries_flatten (acc : List IEntry) :
    ((flushAcc acc).map EBlock.entries).flatten = acc := by
  unfold flushAcc
  cases acc with
  | nil => rfl
  | cons a t =>
    rw [if_neg (by simp)]
    simp [finalizeEntryBlock_entries]

theorem finalizeEntryBlock_text (es : List IEntry) :
    (finalizeEntryBlock es).text
      = joinSep "\n\n" (es.map (fun ie => extractMessageText ie.message)) := rfl

theorem packLoopGo_partition (maxT maxC : Nat) :
    ∀ (fuel : Nat) (l acc : List IEntry) (accTok : Nat),
      l.length ≤ fuel →
      (∀ x ∈ l, entryTokens x ≤ maxT) →
      ((packLoopGo maxT maxC fuel l acc accTok).map EBlock.entries).flatten = acc ++ l ∧
      ∀ B ∈ packLoopGo maxT maxC fuel l acc accTok,
        B.entries ≠ [] ∧
        B.text = joinSep "\n\n" (B.entries.map (fun ie => extractMessageText ie.message)) := by
  intro fuel
  induction fuel with
  | zero =>
    intro l acc accTok hlen _
    have hl : l = [] := by
      cases l with
      | nil => rfl
      | cons a t => simp at hlen
    subst hl
    refine ⟨by simpa using flushAcc_entries_flatten acc, ?_⟩
    intro B hB
    obtain ⟨hacc, hBe⟩ := mem_flushAcc_elim acc B hB
    subst hBe
    exact ⟨by simpa [finalizeEntryBlock_entries] using hacc, finalizeEntryBlock_text acc⟩
  | succ fuel ih =>
    intro l acc accTok hlen htok
    cases l with
    | nil =>
      refine ⟨by simpa using flushAcc_entries_flatten acc, ?_⟩
      intro B hB
      obtain ⟨hacc, hBe⟩ := mem_flushAcc_elim acc B hB
      subst hBe
      exact ⟨by simpa [finalizeEntryBlock_entries] using hacc, finalizeEntryBlock_text acc⟩
    | cons e rest =>
      have hlen' : (restAfter e rest).length ≤ fuel :=
        le_trans (restAfter_length_le e rest) (by simpa using Nat.le_of_succ_le_succ hlen)
      have htok' : ∀ x ∈ restAfter e rest, entryTokens x ≤ maxT := fun x hx =>
        htok x (List.mem_cons_of_mem _ (restAfter_subset e x rest hx))
      simp only [packLoopGo]
      split_ifs with h1 h2 h3
      · obtain ⟨hflat, hprops⟩ := ih (restAfter e rest) [] 0 hlen' htok'
        constructor
        · simp only [List.map_append, List.map_cons, List.flatten_append,
            List.flatten_cons, flushAcc_entries_flatten, finalizeEntryBlock_entries,
            hflat, List.nil_append]
          rw [pairedOf_append_restAfter]
        · intro B hB
          rcases List.mem_append.mp hB with hB | hB
          · obtain ⟨hacc, hBe⟩ := mem_flushAcc_elim acc B hB
            subst hBe
            exact ⟨by simpa [finalizeEntryBlock_entries] using hacc,
              finalizeEntryBlock_text acc⟩
          · rcases List.mem_cons.mp hB with hB | hB
            · subst hB
              exact ⟨by simp [finalizeEntryBlock_entries, pairedOf],
                finalizeEntryBlock_text _⟩
            · exact hprops B hB
      · exfalso
        simp only [Bool.and_eq_true, decide_eq_true_eq, not_and] at h1
        simp only [decide_eq_true_eq] at h2
        have hlen1 : (pairedOf e rest).length ≤ 1 := by
          by_contra hc
          exact absurd (by omega : (pairedOf e rest).length > 1) (by simpa using h1 h2)
        have habs : absorbedOf e rest = [] := by
          have := hlen1
          unfold pairedOf at this
          simp only [List.length_cons] at this
          exact List.length_eq_zero.mp (by omega)
        have : pairedTokensOf e rest = entryTokens e := by
          unfold pairedTokensOf pairedOf
          rw [habs]
          simp
        rw [this] at h2
        exact absurd (htok e (List.mem_cons_self _ _)) (by omega)
      · obtain ⟨hflat, hprops⟩ := ih (restAfter e rest) (pairedOf e rest)
          (pairedTokensOf e rest) hlen' htok'
        constructor
        · simp only [List.map_cons, List.flatten_cons, finalizeEntryBlock_entries, hflat]
          rw [pairedOf_append_restAfter]
        · intro B hB
          rcases List.mem_cons.mp hB with hB | hB
          · subst hB
            have hacc : acc ≠ [] := by
              simp only [Bool.and_eq_true] at h3
              simpa [List.isEmpty_iff] using h3.2
            exact ⟨by simpa [finalizeEntryBlock_entries] using hacc,
              finalizeEntryBlock_text acc⟩
          · exact hprops B hB
      · obtain ⟨hflat, hprops⟩ := ih (restAfter e rest) (acc ++ pairedOf e rest)
          (accTok + pairedTokensOf e rest) hlen' htok'
        refine ⟨?_, fun B hB => hprops B hB⟩
        rw [hflat, List.append_assoc, pairedOf_append_restAfter]

theorem blocksOfTurn_text (cfg : Config) (T : List IEntry) (hT : T ≠ [])
    (htok : ∀ x ∈ T, entryTokens x ≤ cfgBlockSize cfg) :
    blocksOfTurn cfg T ≠ [] ∧
    joinSep "\n\n" ((blocksOfTurn cfg T).map EBlock.text)
      = joinSep "\n\n" (T.map (fun ie => extractMessageText ie.message)) := by
  simp only [blocksOfTurn]
  split_ifs with hsmall
  · exact ⟨by simp, by rw [List.map_singleton, finalizeEntryBlock_text]; rfl⟩
  · obtain ⟨hflat, hprops⟩ :=
      packLoopGo_partition (cfgBlockSize cfg) (cfgBlockSize cfg * 4) T.length T [] 0
        (le_refl _) htok
    rw [List.nil_append] at hflat
    constructor
    · intro hnil
      rw [hnil] at hflat
      exact hT (by simpa using hflat.symm)
    · have hmap1 : (packLoopGo (cfgBlockSize cfg) (cfgBlockSize cfg * 4)
          T.length T [] 0).map EBlock.text
        = ((packLoopGo (cfgBlockSize cfg) (cfgBlockSize cfg * 4)
            T.length T [] 0).map
              (fun B => B.entries.map (fun ie => extractMessageText ie.message))).map
            (joinSep "\n\n") := by
        rw [List.map_map]
        exact List.map_congr_left (fun B hB => (hprops B hB).2)
      have hne : ∀ p ∈ (packLoopGo (cfgBlockSize cfg) (cfgBlockSize cfg * 4)
          T.length T [] 0).map
            (fun B => B.entries.map (fun ie => extractMessageText ie.message)), p ≠ [] := by
        intro p hp
        obtain ⟨B, hB, hBp⟩ := List.mem_map.mp hp
        rw [← hBp]
        simpa using (hprops B hB).1
      have hfuse : (packLoopGo (cfgBlockSize cfg) (cfgBlockSize cfg * 4)
          T.length T [] 0).map
            (fun B => B.entries.map (fun ie => extractMessageText ie.message))
        = ((packLoopGo (cfgBlockSize cfg) (cfgBlockSize cfg * 4)
            T.length T [] 0).map EBlock.entries).map
              (List.map (fun ie => extractMessageText ie.message)) := by
        rw [List.map_map]
        rfl
      rw [hmap1, joinSep_flatten _ _ hne, hfuse, ← List.map_flatten, hflat]

theorem seq_msgs_of_clean :
    ∀ (l : List (Nat × BranchEntry)),
      (∀ p ∈ l, cleanEntry p.2 = true) →
      (l.filterMap fun p =>
          match getMessageFromEntry p.2 with
          | some m => if isSummaryRole m then none else some (⟨p.1, p.2.id, m⟩ : IEntry)
          | none => none).map (fun ie => extractMessageText ie.message)
        = ((l.map Prod.snd).filterMap getMessageFromEntry).map extractMessageText := by
  intro l
  induction l with
  | nil => intro _; rfl
  | cons p t ih =>
    intro hclean
    have hc := hclean p (List.mem_cons_self _ _)
    unfold cleanEntry at hc
    cases hm : getMessageFromEntry p.2 with
    | none => rw [hm] at hc; simp at hc
    | some m =>
      rw [hm] at hc
      have hs : isSummaryRole m = false := by simpa using hc
      simp only [List.filterMap_cons, List.map_cons, hm, hs, Bool.false_eq_true,
        if_false, List.map_cons]
      rw [ih (fun q hq => hclean q (List.mem_cons_of_mem _ hq))]

/-- The rendered texts of the grouped sequence coincide with the span's
message texts whenever every entry yields a non-summary message. -/
theorem entrySeq_texts (entries : List BranchEntry) (startIndex : Nat)
    (hclean : ∀ be ∈ entries.drop startIndex, cleanEntry be = true) :
    (entrySeq entries startIndex).map (fun ie => extractMessageText ie.message)
      = (spanMsgs entries startIndex).map extractMessageText := by
  unfold entrySeq spanMsgs
  have hsnd : (entries.enum.drop startIndex).map Prod.snd = entries.drop startIndex := by
    rw [List.map_drop, List.enum_map_snd]
  rw [seq_msgs_of_clean (entries.enum.drop startIndex) ?hcl, hsnd]
  case hcl =>
    intro q hq
    apply hclean
    rw [← hsnd]
    exact List.mem_map_of_mem _ hq

/-- C5, amended: for spans all of whose entries yield non-summary messages
and in which no single message's rendered text exceeds the block budget
(so no hard split occurs), joining the emitted Blocks' texts in order with
the blank-line separator reproduces the span's content — the blank-line
join of its messages' rendered texts. -/
theorem c5_concat_reproduces_span
    (cfg : Config) (entries : List BranchEntry) (startIndex : Nat)
    (hclean : ∀ be ∈ entries.drop startIndex, cleanEntry be = true)
    (htok : ∀ ie ∈ entrySeq entries startIndex, entryTokens ie ≤ cfgBlockSize cfg) :
    joinSep "\n\n" ((groupEntriesIntoBlocks cfg entries startIndex).map EBlock.text)
      = spanText entries startIndex := by
  have hflat : (turnsGo (entrySeq entries startIndex) []).flatten
      = entrySeq entries startIndex := by
    simpa using turnsGo_flatten (entrySeq entries startIndex) []
  have hTne : ∀ T ∈ turnsGo (entrySeq entries startIndex) [], T ≠ [] :=
    turnsGo_nil_start_ne_nil _
  have hTtok : ∀ T ∈ turnsGo (entrySeq entries startIndex) [],
      ∀ x ∈ T, entryTokens x ≤ cfgBlockSize cfg := by
    intro T hT x hx
    exact htok x (by rw [← hflat]; exact List.mem_flatten.mpr ⟨T, hT, hx⟩)
  unfold groupEntriesIntoBlocks spanText
  rw [List.map_flatMap, List.flatMap_def]
  rw [← joinSep_flatten _ _ ?hps]
  case hps =>
    intro q hq
    obtain ⟨T, hT, hTq⟩ := List.mem_map.mp hq
    rw [← hTq]
    intro hnil
    exact (blocksOfTurn_text cfg T (hTne T hT) (hTtok T hT)).1 (by simpa using hnil)
  rw [List.map_map]
  have hcongr : (turnsGo (entrySeq entries startIndex) []).map
        ((joinSep "\n\n") ∘ fun T => (blocksOfTurn cfg T).map EBlock.text)
      = (turnsGo (entrySeq entries startIndex) []).map
        (fun T => joinSep "\n\n"
          (T.map (fun ie => extractMessageText ie.message))) :=
    List.map_congr_left (fun T hT =>
      (blocksOfTurn_text cfg T (hTne T hT) (hTtok T hT)).2)
  rw [hcongr]
  have hcongr2 : (turnsGo (entrySeq entries startIndex) []).map
        (fun T => joinSep "\n\n" (T.map (fun ie => extractMessageText ie.message)))
      = ((turnsGo (entrySeq entries startIndex) []).map
          (fun T => T.map (fun ie => extractMessageText ie.message))).map
        (joinSep "\n\n") := by
    rw [List.map_map]
    rfl
  rw [hcongr2, joinSep_flatten _ _ ?hts]
  case hts =>
    intro q hq
    obtain ⟨T, hT, hTq⟩ := List.mem_map.mp hq
    rw [← hTq]
    simpa using hTne T hT
  have heta : (turnsGo (entrySeq entries startIndex) []).map
        (fun T => T.map (fun ie => extractMessageText ie.message))
      = (turnsGo (entrySeq entries startIndex) []).map
        (List.map (fun ie => extractMessageText ie.message)) := rfl
  rw [heta, ← List.map_flatten, hflat, entrySeq_texts entries startIndex hclean]

/-- C5 (amended), witness: a two-message span at the default budget. -/
theorem c5_concat_reproduces_span_witness :
    joinSep "\n\n" ((groupEntriesIntoBlocks {} [exEntryU, exEntryA] 0).map EBlock.text)
      = spanText [exEntryU, exEntryA] 0 :=
  c5_concat_reproduces_span {} [exEntryU, exEntryA] 0 (by decide) (by decide)

end RMemory
